import Mathlib

/-!
# Verification of `src/plot.py`

Shallow embedding of the Dijkstra implementation in `src/plot.py` and proofs of
the specification's claims about it.

Modelling choices, all taken directly from the source:

* A Python `dict` is modelled as an association list with distinct keys; lookup
  returns the first binding, assignment replaces the binding of an existing key
  in place and appends a new binding otherwise (exactly Python's insertion-order
  semantics).
* `grafo` is a dict mapping a vertex label to a dict of `(vizinho, peso)`
  bindings; the weights in the source are non-negative integer literals, so
  weights are `Nat`.
* `distancias` values are `Option Nat`: `none` models `float('infinity')`,
  `some n` a finite integer distance.  Comparisons against infinity follow
  Python float comparison (`n < inf` is true, `n > inf` is false).
* `heapq` on `(distance, vertex)` tuples pops, from the multiset of pushed
  entries, the lexicographically least pair (Python tuple comparison: first the
  number, then the string).  `popMin` computes exactly that element.
* The `while fila_prioridade:` loop is embedded with an explicit fuel
  parameter; running out of fuel is reported as `DijkRes.semCombustivel`.
  Termination — that some finite fuel always suffices — is proved separately.
* A Python `KeyError` (raised by `distancias[vertice_atual]`,
  `grafo[vertice_atual]`, `distancias[vizinho]` or `caminhos[vertice_atual]`
  when the key is absent) is modelled as the result `DijkRes.keyError`.
-/

namespace Plot

/-- Lookup in a Python dict modelled as an association list:
the value of the first binding whose key matches, if any. -/
def dlookup {α : Type} : List (String × α) → String → Option α
  | [], _ => none
  | (k, v) :: resto, chave => if k = chave then some v else dlookup resto chave

/-- Assignment `m[chave] = val` on a Python dict: replace the first binding of
`chave` in place, or append a fresh binding at the end. -/
def dset {α : Type} : List (String × α) → String → α → List (String × α)
  | [], chave, val => [(chave, val)]
  | (k, v) :: resto, chave, val =>
    if k = chave then (chave, val) :: resto else (k, v) :: dset resto chave val

/-- The keys of a dict, in insertion order. -/
def keysOf {α : Type} (m : List (String × α)) : List String := m.map Prod.fst

/-- A weighted directed graph exactly as in the source:
`dict` from vertex label to a `dict` from neighbour label to weight. -/
abbrev Grafo := List (String × List (String × Nat))

/-- Python string comparison: lexicographic on the sequences of code points. -/
def strLtData : List Char → List Char → Bool
  | [], [] => false
  | [], _ :: _ => true
  | _ :: _, [] => false
  | a :: as, b :: bs =>
    if a.toNat < b.toNat then true
    else if b.toNat < a.toNat then false
    else strLtData as bs

/-- Python string comparison on `String`. -/
def strLt (a b : String) : Bool := strLtData a.data b.data

/-- Lexicographic order on `(distancia, vertice)` tuples, as Python compares
tuples of a number and a string. -/
def tuplaLe (a b : Nat × String) : Bool :=
  decide (a.1 < b.1) || (decide (a.1 = b.1) && !strLt b.2 a.2)

/-- `heapq.heappop`: return the least `(distancia, vertice)` tuple of the
multiset held by the heap together with the remaining entries. -/
def popMin : List (Nat × String) → Option ((Nat × String) × List (Nat × String))
  | [] => none
  | x :: resto =>
    match popMin resto with
    | none => some (x, [])
    | some (m, resto2) =>
      if tuplaLe x m then some (x, resto) else some (m, x :: resto2)

/-- `distancia < distancias[vizinho]` where the right side may be
`float('infinity')` (`none`). -/
def ltOpt (n : Nat) : Option Nat → Bool
  | none => true
  | some m => n < m

/-- `distancia_atual > distancias[vertice_atual]` where the right side may be
`float('infinity')` (`none`). -/
def gtOpt (n : Nat) : Option Nat → Bool
  | none => false
  | some m => m < n

/-- The mutable state of the `dijkstra` function:
the `distancias` dict, the `caminhos` dict and the `fila_prioridade` heap. -/
structure DijkState where
  distancias : List (String × Option Nat)
  caminhos : List (String × List String)
  fila_prioridade : List (Nat × String)
deriving DecidableEq, Repr

/-- Outcome of running `dijkstra`: normal return of the two dicts, a Python
`KeyError`, or exhaustion of the loop fuel. -/
inductive DijkRes where
  | ok (distancias : List (String × Option Nat)) (caminhos : List (String × List String))
  | keyError
  | semCombustivel
deriving DecidableEq, Repr

/-- The body of `for vizinho, peso in grafo[vertice_atual].items():`
(lines 33–39 of the source), processing the remaining neighbour bindings in
order.  `none` models a `KeyError` raised by `distancias[vizinho]` or
`caminhos[vertice_atual]`. -/
def relaxAll (vertice_atual : String) (distancia_atual : Nat) :
    List (String × Nat) → DijkState → Option DijkState
  | [], st => some st
  | (vizinho, peso) :: resto, st =>
    let distancia := distancia_atual + peso
    match dlookup st.distancias vizinho with
    | none => none
    | some dviz =>
      if ltOpt distancia dviz then
        match dlookup st.caminhos vertice_atual with
        | none => none
        | some caminho_atual =>
          relaxAll vertice_atual distancia_atual resto
            { distancias := dset st.distancias vizinho (some distancia)
              caminhos := dset st.caminhos vizinho (caminho_atual ++ [vizinho])
              fila_prioridade := st.fila_prioridade ++ [(distancia, vizinho)] }
      else relaxAll vertice_atual distancia_atual resto st

/-- The `while fila_prioridade:` loop (lines 27–39 of the source), with an
explicit fuel bound on the number of iterations. -/
def dijkstra_loop (grafo : Grafo) (fuel : Nat) (st : DijkState) : DijkRes :=
  match popMin st.fila_prioridade with
  | none => .ok st.distancias st.caminhos
  | some ((distancia_atual, vertice_atual), resto) =>
    match fuel with
    | 0 => .semCombustivel
    | fuel' + 1 =>
      match dlookup st.distancias vertice_atual with
      | none => .keyError
      | some dv =>
        if gtOpt distancia_atual dv then
          dijkstra_loop grafo fuel' { st with fila_prioridade := resto }
        else
          match dlookup grafo vertice_atual with
          | none => .keyError
          | some vizinhos =>
            match relaxAll vertice_atual distancia_atual vizinhos
                { st with fila_prioridade := resto } with
            | none => .keyError
            | some st' => dijkstra_loop grafo fuel' st'

/-- The state built by lines 19–25 of the source: `distancias` maps every graph
key to infinity except `inicio` (distance 0), `caminhos` maps every graph key
to the empty path except `inicio` (`[inicio]`), and the heap holds
`(0, inicio)`. -/
def dijkstra_init (grafo : Grafo) (inicio : String) : DijkState :=
  { distancias := dset (grafo.map fun p => (p.1, (none : Option Nat))) inicio (some 0)
    caminhos := dset (grafo.map fun p => (p.1, ([] : List String))) inicio [inicio]
    fila_prioridade := [(0, inicio)] }

/-- The `dijkstra` function of the source (lines 5–41), with the loop bounded
by `fuel` iterations. -/
def dijkstra (grafo : Grafo) (inicio : String) (fuel : Nat) : DijkRes :=
  dijkstra_loop grafo fuel (dijkstra_init grafo inicio)

/-- The literal example graph `grafo_exemplo` of the source (lines 87–97). -/
def grafo_exemplo : Grafo :=
  [ ("A", [("B", 6), ("D", 1), ("H", 2)]),
    ("B", [("A", 6), ("C", 5), ("D", 2), ("G", 3)]),
    ("C", [("B", 5), ("D", 1), ("E", 3), ("I", 1)]),
    ("D", [("A", 1), ("B", 2), ("C", 1), ("E", 4), ("F", 2)]),
    ("E", [("C", 3), ("D", 4), ("F", 1)]),
    ("F", [("D", 2), ("E", 1), ("G", 4)]),
    ("G", [("B", 3), ("F", 4), ("H", 3)]),
    ("H", [("A", 2), ("G", 3), ("I", 2)]),
    ("I", [("C", 1), ("H", 2)]) ]

/-! ## Specification-level definitions: edges, paths and path weights -/

/-- The weight of the directed edge `u → v`, read off the adjacency dicts. -/
def aresta (grafo : Grafo) (u v : String) : Option Nat :=
  (dlookup grafo u).bind fun adj => dlookup adj v

/-- `u → v` is an edge of the graph. -/
def Liga (grafo : Grafo) (u v : String) : Prop := (aresta grafo u v).isSome

/-- The sum of the edge weights over consecutive pairs of vertices of a
sequence; `none` if some consecutive pair is not an edge. -/
def pesoCaminho (grafo : Grafo) : List String → Option Nat
  | [] => some 0
  | [_] => some 0
  | u :: v :: resto =>
    (aresta grafo u v).bind fun w => (pesoCaminho grafo (v :: resto)).map (w + ·)

/-- `p` is a directed path in the graph from `inicio` to `v`: it is non-empty,
starts at `inicio`, ends at `v`, and every consecutive pair is an edge. -/
def IsCaminho (grafo : Grafo) (inicio v : String) (p : List String) : Prop :=
  p.head? = some inicio ∧ p.getLast? = some v ∧ p.Chain' (Liga grafo)

/-- There is a directed path from `inicio` to `v` of cumulative weight `n`
(built up from `inicio` by appending edges). -/
inductive CaminhoAte (grafo : Grafo) (inicio : String) : String → Nat → Prop
  | base : CaminhoAte grafo inicio inicio 0
  | passo {u v : String} {d w : Nat} :
      CaminhoAte grafo inicio u d → aresta grafo u v = some w →
      CaminhoAte grafo inicio v (d + w)

/-- A distance-table value as an extended natural: `none` is `+∞`. -/
def paraENat : Option Nat → ℕ∞
  | none => ⊤
  | some n => (n : ℕ∞)

/-- The set of cumulative weights of directed paths from `inicio` to `v`,
as extended naturals. -/
def pesosAlcance (grafo : Grafo) (inicio v : String) : Set ℕ∞ :=
  {w | ∃ p n, IsCaminho grafo inicio v p ∧ pesoCaminho grafo p = some n ∧ w = (n : ℕ∞)}

/-- The graph is a dict of dicts: its key list and every adjacency key list
have no duplicates (automatic for Python dicts). -/
def BomGrafo (grafo : Grafo) : Prop :=
  (keysOf grafo).Nodup ∧ ∀ p ∈ grafo, (keysOf p.2).Nodup

/-- Every neighbour mentioned in an adjacency dict is itself a key of the
graph. -/
def Fechado (grafo : Grafo) : Prop :=
  ∀ p ∈ grafo, ∀ vp ∈ p.2, vp.1 ∈ keysOf grafo

/-! ## The loop invariant -/

/-- Every heap entry dominates the current table value of its vertex
(entries are pushed at the table value of the moment, and table values only
decrease afterwards). -/
def FilaDom (st : DijkState) : Prop :=
  ∀ d v, (d, v) ∈ st.fila_prioridade →
    ∃ dv, dlookup st.distancias v = some (some dv) ∧ dv ≤ d

/-- A vertex `u` currently at finite distance `n` is either still covered by a
pending heap entry of value at most `n`, or all its outgoing edges are already
relaxed with respect to `n`. -/
def PendAt (g : Grafo) (st : DijkState) (u : String) (n : Nat) : Prop :=
  (∃ d, (d, u) ∈ st.fila_prioridade ∧ d ≤ n) ∨
  (∃ adjs, dlookup g u = some adjs ∧ ∀ vp ∈ adjs,
      ∃ m, dlookup st.distancias vp.1 = some (some m) ∧ m ≤ n + vp.2)

/-- The part of the loop invariant that individual relaxation steps preserve
outright. -/
structure InvCore (g : Grafo) (s : String) (st : DijkState) : Prop where
  keysDist : keysOf st.distancias = keysOf g
  keysCam : keysOf st.caminhos = keysOf g
  dist0 : dlookup st.distancias s = some (some 0)
  cam0 : dlookup st.caminhos s = some [s]
  camOk : ∀ v n, dlookup st.distancias v = some (some n) →
      ∃ p, dlookup st.caminhos v = some p ∧ IsCaminho g s v p ∧ pesoCaminho g p = some n
  camInf : ∀ v, dlookup st.distancias v = some none → dlookup st.caminhos v = some []
  filaDom : FilaDom st

/-- The full loop invariant. -/
def Inv (g : Grafo) (s : String) (st : DijkState) : Prop :=
  InvCore g s st ∧ ∀ u n, dlookup st.distancias u = some (some n) → PendAt g st u n

/-- What one full pass of the neighbour loop guarantees, relative to the state
`st` it started from:  the core invariant still holds, the distance of the
popped vertex `u` is untouched, the processed neighbours are relaxed, pending
cover survives for every other vertex, and table values only decreased. -/
structure RelaxOut (g : Grafo) (s u : String) (d : Nat)
    (rest : List (String × Nat)) (st st' : DijkState) : Prop where
  core : InvCore g s st'
  distU : dlookup st'.distancias u = some (some d)
  relaxado : ∀ vp ∈ rest, ∃ m, dlookup st'.distancias vp.1 = some (some m) ∧ m ≤ d + vp.2
  pendOut : ∀ w n, dlookup st'.distancias w = some (some n) → w ≠ u → PendAt g st' w n
  decr : ∀ w n0, dlookup st.distancias w = some (some n0) →
      ∃ n, dlookup st'.distancias w = some (some n) ∧ n ≤ n0

/-- Everything a completed run of `dijkstra` guarantees about its two returned
dicts. -/
structure DijkstraCorrect (g : Grafo) (s : String)
    (d : List (String × Option Nat)) (c : List (String × List String)) : Prop where
  keysDist : keysOf d = keysOf g
  keysCam : keysOf c = keysOf g
  dist0 : dlookup d s = some (some 0)
  cam0 : dlookup c s = some [s]
  camOk : ∀ v n, dlookup d v = some (some n) →
      ∃ p, dlookup c v = some p ∧ IsCaminho g s v p ∧ pesoCaminho g p = some n
  camInf : ∀ v, dlookup d v = some none → dlookup c v = some []
  lower : ∀ v n, CaminhoAte g s v n → ∃ m, dlookup d v = some (some m) ∧ m ≤ n

/-! ## Termination: every value the table can take is bounded, and a measure
on states strictly decreases at each loop iteration -/

/-- Sum of all edge weights of the graph. -/
def somaPesos (g : Grafo) : Nat := (g.map fun p => (p.2.map Prod.snd).sum).sum

/-- Number of table entries holding a finite distance. -/
def finCount (dist : List (String × Option Nat)) : Nat :=
  dist.countP fun p => p.2.isSome

/-- Every finite table value is bounded by the number of finite entries times
the total edge weight (each newly finite vertex adds at most one maximal
weight on top of an already bounded value). -/
def DistBound (g : Grafo) (dist : List (String × Option Nat)) : Prop :=
  ∀ v n, dlookup dist v = some (some n) → n ≤ finCount dist * somaPesos g

/-- Value of one table entry for the termination measure: an infinite entry
counts just above every value a finite entry can reach. -/
def phiOpt (K : Nat) : Option Nat → Nat
  | none => K + 1
  | some n => n

/-- Termination potential of the distance table. -/
def dsum (K : Nat) (dist : List (String × Option Nat)) : Nat :=
  (dist.map fun p => phiOpt K p.2).sum

/-! ## Edge removal and addition (for the monotonicity property) -/

/-- `del m[chave]` on a Python dict: drop the first binding of the key. -/
def dremove {α : Type} : List (String × α) → String → List (String × α)
  | [], _ => []
  | (k, v) :: resto, chave => if k = chave then resto else (k, v) :: dremove resto chave

/-- `del grafo[u][x]`: the graph with the directed edge `u → x` removed. -/
def removeAresta (g : Grafo) (u x : String) : Grafo :=
  g.map fun p => if p.1 = u then (p.1, dremove p.2 x) else p

/-- `grafo[u][x] = w`: the graph with the directed edge `u → x` of weight `w`
added. -/
def addAresta (g : Grafo) (u x : String) (w : Nat) : Grafo :=
  g.map fun p => if p.1 = u then (p.1, dset p.2 x w) else p

/-! ## Decidability instances and concrete data for the witnesses -/

instance (g : Grafo) : Decidable (BomGrafo g) := by
  unfold BomGrafo
  infer_instance

instance (g : Grafo) : Decidable (Fechado g) := by
  unfold Fechado
  infer_instance

/-- The distance dict actually returned on `grafo_exemplo` from source A. -/
def distancias_exemplo : List (String × Option Nat) :=
  [("A", some 0), ("B", some 3), ("C", some 2), ("D", some 1), ("E", some 4),
   ("F", some 3), ("G", some 5), ("H", some 2), ("I", some 3)]

/-- The path dict actually returned on `grafo_exemplo` from source A. -/
def caminhos_exemplo : List (String × List String) :=
  [("A", ["A"]), ("B", ["A", "D", "B"]), ("C", ["A", "D", "C"]), ("D", ["A", "D"]),
   ("E", ["A", "D", "F", "E"]), ("F", ["A", "D", "F"]), ("G", ["A", "H", "G"]),
   ("H", ["A", "H"]), ("I", ["A", "D", "C", "I"])]

/-- A graph with an isolated, unreachable vertex Z. -/
def grafo_ilha : Grafo := [("A", [("B", 1)]), ("B", []), ("Z", [])]

def distancias_ilha : List (String × Option Nat) :=
  [("A", some 0), ("B", some 1), ("Z", none)]

def caminhos_ilha : List (String × List String) :=
  [("A", ["A"]), ("B", ["A", "B"]), ("Z", [])]

/-- Tiny graph used to witness the edge monotonicity claim. -/
def grafo_mono : Grafo := [("A", [("B", 3)]), ("B", [])]

def distancias_mono : List (String × Option Nat) := [("A", some 0), ("B", some 3)]

def caminhos_mono : List (String × List String) := [("A", ["A"]), ("B", ["A", "B"])]

def distancias_mono_rem : List (String × Option Nat) := [("A", some 0), ("B", none)]

def caminhos_mono_rem : List (String × List String) := [("A", ["A"]), ("B", [])]

/-! ## Dict lemmas -/

theorem dlookup_dset_self {α : Type} (m : List (String × α)) (k : String) (v : α) :
    dlookup (dset m k v) k = some v := by
  induction m with
  | nil => simp [dset, dlookup]
  | cons hd tl ih =>
    obtain ⟨a, b⟩ := hd
    by_cases h : a = k
    · simp [dset, dlookup, h]
    · simp [dset, dlookup, h, ih]

theorem dlookup_dset_ne {α : Type} (m : List (String × α)) {k k' : String} (v : α)
    (h : k' ≠ k) : dlookup (dset m k v) k' = dlookup m k' := by
  have h2 : ¬ (k = k') := fun he => h he.symm
  induction m with
  | nil => simp [dset, dlookup, h2]
  | cons hd tl ih =>
    obtain ⟨a, b⟩ := hd
    by_cases hh : a = k
    · have hh' : ¬ (a = k') := by rw [hh]; exact h2
      simp [dset, dlookup, hh, h2, hh']
    · by_cases hh' : a = k'
      · simp [dset, dlookup, hh, hh', h]
      · simp [dset, dlookup, hh, hh', ih]

theorem mem_keysOf_of_dlookup {α : Type} {m : List (String × α)} {k : String} {v : α}
    (h : dlookup m k = some v) : k ∈ keysOf m := by
  induction m with
  | nil => simp [dlookup] at h
  | cons hd tl ih =>
    obtain ⟨a, b⟩ := hd
    by_cases hh : a = k
    · simp [keysOf, hh]
    · simp only [dlookup, hh, if_false] at h
      simp only [keysOf, List.map_cons, List.mem_cons]
      exact Or.inr (ih h)

theorem dlookup_isSome_of_mem_keysOf {α : Type} {m : List (String × α)} {k : String}
    (h : k ∈ keysOf m) : ∃ v, dlookup m k = some v := by
  induction m with
  | nil => simp [keysOf] at h
  | cons hd tl ih =>
    obtain ⟨a, b⟩ := hd
    by_cases hh : a = k
    · exact ⟨b, by simp [dlookup, hh]⟩
    · have h' : k ∈ keysOf tl := by
        simp only [keysOf, List.map_cons, List.mem_cons] at h
        exact h.resolve_left fun he => hh he.symm
      obtain ⟨v, hv⟩ := ih h'
      exact ⟨v, by simp [dlookup, hh, hv]⟩

theorem dlookup_eq_none_of_not_mem {α : Type} {m : List (String × α)} {k : String}
    (h : k ∉ keysOf m) : dlookup m k = none := by
  cases he : dlookup m k with
  | none => rfl
  | some v => exact absurd (mem_keysOf_of_dlookup he) h

theorem keysOf_dset_of_mem {α : Type} {m : List (String × α)} {k : String} (v : α)
    (h : k ∈ keysOf m) : keysOf (dset m k v) = keysOf m := by
  induction m with
  | nil => simp [keysOf] at h
  | cons hd tl ih =>
    obtain ⟨a, b⟩ := hd
    by_cases hh : a = k
    · simp [dset, keysOf, hh]
    · have h' : k ∈ keysOf tl := by
        simp only [keysOf, List.map_cons, List.mem_cons] at h
        exact h.resolve_left fun he => hh he.symm
      have := ih h'
      simp only [dset, hh, if_false, keysOf, List.map_cons] at this ⊢
      rw [this]

theorem dlookup_map_const {α β : Type} (m : List (String × α)) (c : β) (k : String) :
    dlookup (m.map fun p => (p.1, c)) k = if k ∈ keysOf m then some c else none := by
  induction m with
  | nil => simp [dlookup, keysOf]
  | cons hd tl ih =>
    obtain ⟨a, b⟩ := hd
    by_cases hh : a = k
    · simp [dlookup, keysOf, hh]
    · have : ¬ (k = a) := fun he => hh he.symm
      simp only [List.map_cons, dlookup, hh, if_false, ih, keysOf, List.mem_cons, this,
        false_or]

theorem keysOf_map_const {α β : Type} (m : List (String × α)) (c : β) :
    keysOf (m.map fun p => (p.1, c)) = keysOf m := by
  induction m with
  | nil => rfl
  | cons hd tl ih =>
    simp only [keysOf, List.map_cons] at ih ⊢
    rw [ih]

theorem mem_of_dlookup {α : Type} {m : List (String × α)} {k : String} {v : α}
    (h : dlookup m k = some v) : (k, v) ∈ m := by
  induction m with
  | nil => simp [dlookup] at h
  | cons hd tl ih =>
    obtain ⟨a, b⟩ := hd
    by_cases hh : a = k
    · simp only [dlookup, hh, if_true, Option.some.injEq] at h
      exact List.mem_cons.mpr (Or.inl (by rw [← hh, ← h]))
    · simp only [dlookup, hh, if_false] at h
      exact List.mem_cons.mpr (Or.inr (ih h))

theorem dlookup_of_mem_nodup {α : Type} {m : List (String × α)} {k : String} {v : α}
    (hnd : (keysOf m).Nodup) (h : (k, v) ∈ m) : dlookup m k = some v := by
  induction m with
  | nil => simp at h
  | cons hd tl ih =>
    simp only [keysOf, List.map_cons, List.nodup_cons] at hnd
    rcases List.mem_cons.mp h with h | h
    · rw [← h]; simp [dlookup]
    · have hk : ¬ (hd.1 = k) := by
        intro he
        exact hnd.1 (he ▸ (List.mem_map.mpr ⟨(k, v), h, rfl⟩))
      simp only [dlookup, hk, if_false]
      exact ih hnd.2 h

/-! ## Heap lemmas: `popMin` pops one element of the multiset -/

theorem popMin_eq_none (l : List (Nat × String)) : popMin l = none ↔ l = [] := by
  cases l with
  | nil => simp [popMin]
  | cons x resto =>
    simp only [popMin]
    cases popMin resto with
    | none => simp
    | some p =>
      obtain ⟨m, resto2⟩ := p
      by_cases h : tuplaLe x m
      · simp [h]
      · simp [h]

theorem popMin_perm {l : List (Nat × String)} {m : Nat × String} {resto : List (Nat × String)}
    (h : popMin l = some (m, resto)) : l.Perm (m :: resto) := by
  induction l generalizing m resto with
  | nil => simp [popMin] at h
  | cons x tl ih =>
    simp only [popMin] at h
    cases hp : popMin tl with
    | none =>
      simp only [hp] at h
      have htl : tl = [] := (popMin_eq_none tl).mp hp
      subst htl
      simp only [Option.some.injEq, Prod.mk.injEq] at h
      obtain ⟨h1, h2⟩ := h
      subst h1; subst h2
      exact List.Perm.refl _
    | some p =>
      obtain ⟨m2, resto2⟩ := p
      simp only [hp] at h
      by_cases ht : tuplaLe x m2
      · rw [if_pos ht] at h
        simp only [Option.some.injEq, Prod.mk.injEq] at h
        obtain ⟨h1, h2⟩ := h
        subst h1; subst h2
        exact List.Perm.refl _
      · rw [if_neg ht] at h
        simp only [Option.some.injEq, Prod.mk.injEq] at h
        obtain ⟨h1, h2⟩ := h
        subst h1; subst h2
        exact ((ih hp).cons x).trans (List.Perm.swap m2 x resto2)

theorem popMin_mem {l : List (Nat × String)} {m : Nat × String} {resto : List (Nat × String)}
    (h : popMin l = some (m, resto)) : m ∈ l :=
  (popMin_perm h).symm.subset (List.mem_cons_self _ _)

theorem popMin_subset {l : List (Nat × String)} {m : Nat × String} {resto : List (Nat × String)}
    (h : popMin l = some (m, resto)) : ∀ x ∈ resto, x ∈ l :=
  fun _ hx => (popMin_perm h).symm.subset (List.mem_cons_of_mem _ hx)

theorem popMin_mem_rest {l : List (Nat × String)} {m : Nat × String}
    {resto : List (Nat × String)} (h : popMin l = some (m, resto)) :
    ∀ x ∈ l, x ≠ m → x ∈ resto := by
  intro x hx hne
  rcases List.mem_cons.mp ((popMin_perm h).subset hx) with h' | h'
  · exact absurd h' hne
  · exact h'

theorem popMin_length {l : List (Nat × String)} {m : Nat × String}
    {resto : List (Nat × String)} (h : popMin l = some (m, resto)) :
    l.length = resto.length + 1 := by
  simpa using (popMin_perm h).length_eq

/-! ## Path lemmas -/

theorem isCaminho_single (g : Grafo) (s : String) : IsCaminho g s s [s] :=
  ⟨rfl, rfl, List.chain'_singleton s⟩

theorem isCaminho_append {g : Grafo} {s u v : String} {p : List String} {w : Nat}
    (hp : IsCaminho g s u p) (he : aresta g u v = some w) :
    IsCaminho g s v (p ++ [v]) := by
  obtain ⟨hhead, hlast, hchain⟩ := hp
  refine ⟨?_, ?_, ?_⟩
  · cases p with
    | nil => simp at hhead
    | cons x tl => simpa using hhead
  · simp [List.getLast?_concat]
  · rw [List.chain'_append]
    refine ⟨hchain, List.chain'_singleton _, ?_⟩
    intro x hx y hy
    rw [hlast] at hx
    simp only [Option.mem_def, Option.some.injEq, List.head?_cons] at hx hy
    subst hx; subst hy
    simp [Liga, he]

theorem pesoCaminho_concat (g : Grafo) {l : List String} {u : String} (a : String)
    (hlast : l.getLast? = some u) :
    pesoCaminho g (l ++ [a]) =
      (pesoCaminho g l).bind fun m => (aresta g u a).map fun w => m + w := by
  induction l generalizing u with
  | nil => simp at hlast
  | cons x tl ih =>
    cases tl with
    | nil =>
      simp only [List.getLast?_singleton, Option.some.injEq] at hlast
      subst hlast
      simp only [List.cons_append, List.nil_append, pesoCaminho]
      cases aresta g x a with
      | none => simp
      | some w => simp [Nat.add_comm]
    | cons y tl2 =>
      have hlast2 : (y :: tl2).getLast? = some u := by
        rw [List.getLast?_cons_cons] at hlast
        exact hlast
      have hih := ih hlast2
      simp only [List.cons_append, List.append_eq, pesoCaminho] at hih ⊢
      rw [hih]
      cases aresta g x y with
      | none => simp
      | some w =>
        cases pesoCaminho g (y :: tl2) with
        | none => simp
        | some m =>
          cases aresta g u a with
          | none => simp
          | some wa => simp [Nat.add_assoc]

theorem pesoCaminho_isSome_of_chain (g : Grafo) :
    ∀ p : List String, p.Chain' (Liga g) → ∃ n, pesoCaminho g p = some n := by
  intro p
  induction p with
  | nil => exact fun _ => ⟨0, rfl⟩
  | cons x tl ih =>
    intro hch
    cases tl with
    | nil => exact ⟨0, rfl⟩
    | cons y tl2 =>
      rw [List.chain'_cons] at hch
      obtain ⟨hxy, hch2⟩ := hch
      obtain ⟨n, hn⟩ := ih hch2
      have : ∃ w, aresta g x y = some w := by
        simpa [Liga, Option.isSome_iff_exists] using hxy
      obtain ⟨w, hw⟩ := this
      exact ⟨w + n, by simp [pesoCaminho, hw, hn]⟩

theorem caminhoAte_of_isCaminho {g : Grafo} {s : String} :
    ∀ {p : List String} {v : String} {n : Nat},
      IsCaminho g s v p → pesoCaminho g p = some n → CaminhoAte g s v n := by
  intro p
  induction p using List.reverseRecOn with
  | nil => intro v n hp _; obtain ⟨h, _, _⟩ := hp; simp at h
  | append_singleton l a ih =>
    intro v n hp hn
    obtain ⟨hhead, hlast, hchain⟩ := hp
    have hva : v = a := by
      rw [List.getLast?_concat] at hlast
      exact (Option.some_inj.mp hlast).symm
    subst hva
    cases l with
    | nil =>
      simp only [List.nil_append, List.head?_cons, Option.some.injEq] at hhead
      subst hhead
      simp only [pesoCaminho, Option.some.injEq] at hn
      subst hn
      exact CaminhoAte.base
    | cons x tl =>
      rw [List.chain'_append] at hchain
      obtain ⟨hcl, _, hlink⟩ := hchain
      have hx : ∃ u, (x :: tl).getLast? = some u := by
        cases hl : (x :: tl).getLast? with
        | none => simp [List.getLast?_eq_none_iff] at hl
        | some u => exact ⟨u, rfl⟩
      obtain ⟨u, hu⟩ := hx
      have hliga : Liga g u v := hlink u hu v rfl
      have hw : ∃ w, aresta g u v = some w := by
        simpa [Liga, Option.isSome_iff_exists] using hliga
      obtain ⟨w, hw⟩ := hw
      have hhl : (x :: tl).head? = some s := by
        simpa using hhead
      have hpl : IsCaminho g s u (x :: tl) := ⟨hhl, hu, hcl⟩
      have hpeso := pesoCaminho_concat g (l := x :: tl) v hu
      rw [hpeso, hw] at hn
      cases hm : pesoCaminho g (x :: tl) with
      | none => rw [hm] at hn; simp at hn
      | some m =>
        rw [hm] at hn
        simp at hn
        subst hn
        exact CaminhoAte.passo (ih hpl hm) hw

/-! ## Comparison lemmas for the infinity-aware tests -/

theorem ltOpt_true_some {n m : Nat} (h : ltOpt n (some m) = true) : n < m := by
  simpa [ltOpt] using h

theorem ltOpt_false_iff (n : Nat) (o : Option Nat) :
    ltOpt n o = false ↔ ∃ m, o = some m ∧ m ≤ n := by
  cases o with
  | none => simp [ltOpt]
  | some m =>
    simp only [ltOpt, decide_eq_false_iff_not, Nat.not_lt, Option.some.injEq]
    constructor
    · exact fun h => ⟨m, rfl, h⟩
    · rintro ⟨m2, he, hle⟩
      rw [he]; exact hle

theorem gtOpt_true_iff (n : Nat) (o : Option Nat) :
    gtOpt n o = true ↔ ∃ m, o = some m ∧ m < n := by
  cases o with
  | none => simp [gtOpt]
  | some m =>
    simp only [gtOpt, decide_eq_true_eq, Option.some.injEq]
    constructor
    · exact fun h => ⟨m, rfl, h⟩
    · rintro ⟨m2, he, hlt⟩
      rw [he]; exact hlt

/-- Shrinking the heap to a subcollection preserves the core invariant. -/
theorem invCore_fila {g : Grafo} {s : String} {st : DijkState}
    (hc : InvCore g s st) (fila2 : List (Nat × String))
    (h : ∀ x ∈ fila2, x ∈ st.fila_prioridade) :
    InvCore g s { st with fila_prioridade := fila2 } := by
  refine ⟨hc.keysDist, hc.keysCam, hc.dist0, hc.cam0, hc.camOk, hc.camInf, ?_⟩
  intro d v hmem
  exact hc.filaDom d v (h (d, v) hmem)

/-- One full pass of the neighbour loop, started on the popped vertex `u` at
its current table value `d`, preserves the invariant and relaxes every
processed edge. -/
theorem relaxAll_spec {g : Grafo} {s u : String} {d : Nat} {adjs : List (String × Nat)}
    (hGu : dlookup g u = some adjs) :
    ∀ (rest : List (String × Nat)) (st st' : DijkState),
      relaxAll u d rest st = some st' →
      InvCore g s st →
      dlookup st.distancias u = some (some d) →
      (∀ vp ∈ rest, dlookup adjs vp.1 = some vp.2) →
      (∀ w n, dlookup st.distancias w = some (some n) → w ≠ u → PendAt g st w n) →
      RelaxOut g s u d rest st st' := by
  intro rest
  induction rest with
  | nil =>
    intro st st' h hc hu _ hpend
    simp only [relaxAll, Option.some.injEq] at h
    subst h
    refine ⟨hc, hu, by simp, hpend, ?_⟩
    intro w n0 h0
    exact ⟨n0, h0, Nat.le_refl n0⟩
  | cons vp0 rest' ih =>
    obtain ⟨vizinho, peso⟩ := vp0
    intro st st' h hc hu hrest hpend
    simp only [relaxAll] at h
    cases hdviz : dlookup st.distancias vizinho with
    | none =>
      simp only [hdviz] at h
      exact Option.noConfusion h
    | some dviz =>
      simp only [hdviz] at h
      by_cases hlt : ltOpt (d + peso) dviz = true
      · rw [if_pos hlt] at h
        cases hcam : dlookup st.caminhos u with
        | none =>
          simp only [hcam] at h
          exact Option.noConfusion h
        | some caminho_atual =>
          simp only [hcam] at h
          have haresta : aresta g u vizinho = some peso := by
            simp only [aresta, hGu]
            exact hrest (vizinho, peso) (List.mem_cons_self _ _)
          have hvu : vizinho ≠ u := by
            intro he
            rw [he, hu] at hdviz
            have hd := Option.some_inj.mp hdviz
            rw [← hd] at hlt
            have := ltOpt_true_some hlt
            omega
          have hvs : vizinho ≠ s := by
            intro he
            rw [he, hc.dist0] at hdviz
            have hd := Option.some_inj.mp hdviz
            rw [← hd] at hlt
            have := ltOpt_true_some hlt
            omega
          have hvizMemD : vizinho ∈ keysOf st.distancias := mem_keysOf_of_dlookup hdviz
          have hvizMemC : vizinho ∈ keysOf st.caminhos := by
            rw [hc.keysCam, ← hc.keysDist]
            exact hvizMemD
          obtain ⟨pu, hpuCam, hpuIs, hpuPeso⟩ := hc.camOk u d hu
          have hpceq : caminho_atual = pu := by
            rw [hcam] at hpuCam
            exact Option.some_inj.mp hpuCam
          subst hpceq
          have hcMid : InvCore g s
              { distancias := dset st.distancias vizinho (some (d + peso))
                caminhos := dset st.caminhos vizinho (caminho_atual ++ [vizinho])
                fila_prioridade := st.fila_prioridade ++ [(d + peso, vizinho)] } := by
            refine ⟨?_, ?_, ?_, ?_, ?_, ?_, ?_⟩
            · show keysOf (dset st.distancias vizinho (some (d + peso))) = keysOf g
              rw [keysOf_dset_of_mem _ hvizMemD, hc.keysDist]
            · show keysOf (dset st.caminhos vizinho (caminho_atual ++ [vizinho])) = keysOf g
              rw [keysOf_dset_of_mem _ hvizMemC, hc.keysCam]
            · show dlookup (dset st.distancias vizinho (some (d + peso))) s = some (some 0)
              rw [dlookup_dset_ne _ _ (Ne.symm hvs)]
              exact hc.dist0
            · show dlookup (dset st.caminhos vizinho (caminho_atual ++ [vizinho])) s = some [s]
              rw [dlookup_dset_ne _ _ (Ne.symm hvs)]
              exact hc.cam0
            · intro v n hv
              by_cases hvviz : v = vizinho
              · subst hvviz
                rw [dlookup_dset_self] at hv
                have hn : d + peso = n := Option.some_inj.mp (Option.some_inj.mp hv)
                refine ⟨caminho_atual ++ [v], dlookup_dset_self _ _ _,
                  isCaminho_append hpuIs haresta, ?_⟩
                rw [pesoCaminho_concat g v hpuIs.2.1, hpuPeso, haresta, ← hn]
                rfl
              · rw [dlookup_dset_ne _ _ hvviz] at hv
                obtain ⟨p, hp1, hp2, hp3⟩ := hc.camOk v n hv
                exact ⟨p, by rw [dlookup_dset_ne _ _ hvviz]; exact hp1, hp2, hp3⟩
            · intro v hv
              by_cases hvviz : v = vizinho
              · subst hvviz
                rw [dlookup_dset_self] at hv
                exact absurd (Option.some_inj.mp hv) (by simp)
              · rw [dlookup_dset_ne _ _ hvviz] at hv
                rw [dlookup_dset_ne _ _ hvviz]
                exact hc.camInf v hv
            · intro d0 v0 hmem
              rcases List.mem_append.mp hmem with hmem | hmem
              · obtain ⟨dv0, hl, hle⟩ := hc.filaDom d0 v0 hmem
                by_cases hvv : v0 = vizinho
                · subst hvv
                  refine ⟨d + peso, dlookup_dset_self _ _ _, ?_⟩
                  have hdd : dviz = some dv0 := by
                    rw [hl] at hdviz
                    exact (Option.some_inj.mp hdviz).symm
                  rw [hdd] at hlt
                  have := ltOpt_true_some hlt
                  omega
                · exact ⟨dv0, by rw [dlookup_dset_ne _ _ hvv]; exact hl, hle⟩
              · simp only [List.mem_singleton, Prod.mk.injEq] at hmem
                obtain ⟨h1, h2⟩ := hmem
                subst h1; subst h2
                exact ⟨d + peso, dlookup_dset_self _ _ _, Nat.le_refl _⟩
          have huMid : dlookup (dset st.distancias vizinho (some (d + peso))) u
              = some (some d) := by
            rw [dlookup_dset_ne _ _ (Ne.symm hvu)]
            exact hu
          have hpendMid : ∀ w n,
              dlookup (dset st.distancias vizinho (some (d + peso))) w = some (some n) →
              w ≠ u →
              PendAt g
                { distancias := dset st.distancias vizinho (some (d + peso))
                  caminhos := dset st.caminhos vizinho (caminho_atual ++ [vizinho])
                  fila_prioridade := st.fila_prioridade ++ [(d + peso, vizinho)] } w n := by
            intro w n hw hwne
            by_cases hwviz : w = vizinho
            · subst hwviz
              rw [dlookup_dset_self] at hw
              have hn : d + peso = n := Option.some_inj.mp (Option.some_inj.mp hw)
              left
              exact ⟨d + peso, by simp, by omega⟩
            · rw [dlookup_dset_ne _ _ hwviz] at hw
              rcases hpend w n hw hwne with ⟨d0, hd0mem, hd0le⟩ | ⟨adjsw, hgw, hrel⟩
              · exact Or.inl ⟨d0, List.mem_append_left _ hd0mem, hd0le⟩
              · right
                refine ⟨adjsw, hgw, ?_⟩
                intro vp hvp
                obtain ⟨m, hm, hmle⟩ := hrel vp hvp
                by_cases hvv : vp.1 = vizinho
                · refine ⟨d + peso, by rw [hvv]; exact dlookup_dset_self _ _ _, ?_⟩
                  rw [hvv] at hm
                  have hdd : dviz = some m := by
                    rw [hm] at hdviz
                    exact (Option.some_inj.mp hdviz).symm
                  rw [hdd] at hlt
                  have := ltOpt_true_some hlt
                  omega
                · exact ⟨m, by rw [dlookup_dset_ne _ _ hvv]; exact hm, hmle⟩
          have out := ih _ st' h hcMid huMid
            (fun vp hvp => hrest vp (List.mem_cons_of_mem _ hvp)) hpendMid
          refine ⟨out.core, out.distU, ?_, out.pendOut, ?_⟩
          · intro vp hvp
            rcases List.mem_cons.mp hvp with hvp | hvp
            · subst hvp
              obtain ⟨n, hn, hnle⟩ := out.decr vizinho (d + peso) (dlookup_dset_self _ _ _)
              exact ⟨n, hn, by omega⟩
            · exact out.relaxado vp hvp
          · intro w n0 h0
            by_cases hwviz : w = vizinho
            · subst hwviz
              have hdd : dviz = some n0 := by
                rw [h0] at hdviz
                exact (Option.some_inj.mp hdviz).symm
              obtain ⟨n, hn, hnle⟩ := out.decr w (d + peso) (dlookup_dset_self _ _ _)
              refine ⟨n, hn, ?_⟩
              rw [hdd] at hlt
              have := ltOpt_true_some hlt
              omega
            · exact out.decr w n0 (by rw [dlookup_dset_ne _ _ hwviz]; exact h0)
      · rw [if_neg hlt] at h
        obtain ⟨mv, hmv, hmvle⟩ := (ltOpt_false_iff _ _).mp (Bool.eq_false_iff.mpr hlt)
        have hout := ih st st' h hc hu
          (fun vp hvp => hrest vp (List.mem_cons_of_mem _ hvp)) hpend
        refine ⟨hout.core, hout.distU, ?_, hout.pendOut, hout.decr⟩
        intro vp hvp
        rcases List.mem_cons.mp hvp with hvp | hvp
        · subst hvp
          have hlk : dlookup st.distancias vizinho = some (some mv) := by
            rw [hdviz, hmv]
          obtain ⟨n, hn, hnle⟩ := hout.decr vizinho mv hlk
          exact ⟨n, hn, by omega⟩
        · exact hout.relaxado vp hvp

/-- The invariant holds for the state built by lines 19–25, provided the
source is a key of the graph. -/
theorem inv_init {g : Grafo} {s : String} (hs : s ∈ keysOf g) :
    Inv g s (dijkstra_init g s) := by
  have hsD : s ∈ keysOf (g.map fun p => (p.1, (none : Option Nat))) := by
    rw [keysOf_map_const]; exact hs
  have hsC : s ∈ keysOf (g.map fun p => (p.1, ([] : List String))) := by
    rw [keysOf_map_const]; exact hs
  constructor
  · refine ⟨?_, ?_, ?_, ?_, ?_, ?_, ?_⟩
    · show keysOf (dset (g.map fun p => (p.1, (none : Option Nat))) s (some 0)) = keysOf g
      rw [keysOf_dset_of_mem _ hsD, keysOf_map_const]
    · show keysOf (dset (g.map fun p => (p.1, ([] : List String))) s [s]) = keysOf g
      rw [keysOf_dset_of_mem _ hsC, keysOf_map_const]
    · exact dlookup_dset_self _ _ _
    · exact dlookup_dset_self _ _ _
    · intro v n hv
      simp only [dijkstra_init] at hv ⊢
      by_cases hvs : v = s
      · subst hvs
        rw [dlookup_dset_self] at hv
        have hn : (some 0 : Option Nat) = some n := Option.some_inj.mp hv
        have hn2 : (0 : Nat) = n := Option.some_inj.mp hn
        refine ⟨[v], dlookup_dset_self _ _ _, isCaminho_single g v, ?_⟩
        rw [← hn2]
        rfl
      · rw [dlookup_dset_ne _ _ hvs, dlookup_map_const] at hv
        by_cases hvk : v ∈ keysOf g
        · rw [if_pos hvk] at hv
          exact absurd (Option.some_inj.mp hv) (by simp)
        · rw [if_neg hvk] at hv
          exact Option.noConfusion hv
    · intro v hv
      simp only [dijkstra_init] at hv ⊢
      by_cases hvs : v = s
      · subst hvs
        rw [dlookup_dset_self] at hv
        exact absurd (Option.some_inj.mp hv) (by simp)
      · rw [dlookup_dset_ne _ _ hvs, dlookup_map_const] at hv
        by_cases hvk : v ∈ keysOf g
        · rw [dlookup_dset_ne _ _ hvs, dlookup_map_const, if_pos hvk]
        · rw [if_neg hvk] at hv
          exact Option.noConfusion hv
    · intro d0 v0 hmem
      simp only [dijkstra_init, List.mem_singleton, Prod.mk.injEq] at hmem
      obtain ⟨h1, h2⟩ := hmem
      subst h1; subst h2
      exact ⟨0, dlookup_dset_self _ _ _, Nat.le_refl 0⟩
  · intro u n hu
    simp only [dijkstra_init] at hu
    by_cases hus : u = s
    · subst hus
      rw [dlookup_dset_self] at hu
      left
      exact ⟨0, by simp [dijkstra_init], Nat.zero_le n⟩
    · rw [dlookup_dset_ne _ _ hus, dlookup_map_const] at hu
      by_cases hvk : u ∈ keysOf g
      · rw [if_pos hvk] at hu
        exact absurd (Option.some_inj.mp hu) (by simp)
      · rw [if_neg hvk] at hu
        exact Option.noConfusion hu

/-- If the loop runs to normal completion, the invariant carries over to the
returned dicts with an empty heap. -/
theorem dijkstra_loop_inv {g : Grafo} {s : String}
    (hnd : ∀ p ∈ g, (keysOf p.2).Nodup) :
    ∀ (fuel : Nat) (st : DijkState) (d : List (String × Option Nat))
      (c : List (String × List String)),
      Inv g s st → dijkstra_loop g fuel st = .ok d c →
      Inv g s ⟨d, c, []⟩ := by
  intro fuel
  induction fuel with
  | zero =>
    intro st d c hInv h
    obtain ⟨sd, sc, sf⟩ := st
    rw [dijkstra_loop] at h
    cases hpop : popMin sf with
    | none =>
      simp only [hpop] at h
      injection h with h1 h2
      subst h1; subst h2
      have hf : sf = [] := (popMin_eq_none sf).mp hpop
      subst hf
      exact hInv
    | some pr =>
      obtain ⟨⟨da, va⟩, resto⟩ := pr
      simp only [hpop] at h
      exact DijkRes.noConfusion h
  | succ fuel' ih =>
    intro st d c hInv h
    rw [dijkstra_loop] at h
    cases hpop : popMin st.fila_prioridade with
    | none =>
      obtain ⟨sd, sc, sf⟩ := st
      simp only [hpop] at h
      injection h with h1 h2
      subst h1; subst h2
      have hf : sf = [] := (popMin_eq_none sf).mp hpop
      subst hf
      exact hInv
    | some pr =>
      obtain ⟨⟨da, va⟩, resto⟩ := pr
      simp only [hpop] at h
      cases hdv : dlookup st.distancias va with
      | none =>
        simp only [hdv] at h
        exact DijkRes.noConfusion h
      | some dv =>
        simp only [hdv] at h
        by_cases hgt : gtOpt da dv = true
        · rw [if_pos hgt] at h
          have hInvPop : Inv g s { st with fila_prioridade := resto } := by
            refine ⟨invCore_fila hInv.1 resto (popMin_subset hpop), ?_⟩
            intro u n hu
            rcases hInv.2 u n hu with ⟨d0, hmem0, hle0⟩ | hrel
            · left
              refine ⟨d0, ?_, hle0⟩
              refine popMin_mem_rest hpop _ hmem0 ?_
              intro heq
              simp only [Prod.mk.injEq] at heq
              obtain ⟨h1, h2⟩ := heq
              subst h2
              rw [hu] at hdv
              have hdvn : dv = some n := (Option.some_inj.mp hdv).symm
              obtain ⟨m, hm, hmlt⟩ := (gtOpt_true_iff _ _).mp hgt
              rw [hdvn] at hm
              have : m = n := (Option.some_inj.mp hm).symm
              omega
            · exact Or.inr hrel
          exact ih _ d c hInvPop h
        · rw [if_neg hgt] at h
          cases hGva : dlookup g va with
          | none =>
            simp only [hGva] at h
            exact DijkRes.noConfusion h
          | some vizinhos =>
            simp only [hGva] at h
            cases hrel : relaxAll va da vizinhos { st with fila_prioridade := resto } with
            | none =>
              rw [hrel] at h
              exact DijkRes.noConfusion h
            | some st2 =>
              rw [hrel] at h
              have hva_dist : dlookup st.distancias va = some (some da) := by
                obtain ⟨dv0, hlk, hle⟩ := hInv.1.filaDom da va (popMin_mem hpop)
                have hdvv : dv = some dv0 := by
                  rw [hlk] at hdv
                  exact (Option.some_inj.mp hdv).symm
                have hnlt : ¬ (dv0 < da) := by
                  intro hlt2
                  exact hgt ((gtOpt_true_iff _ _).mpr ⟨dv0, hdvv, hlt2⟩)
                have : dv0 = da := by omega
                rw [hlk, this]
              have hndv : (keysOf vizinhos).Nodup := hnd _ (mem_of_dlookup hGva)
              have hrest : ∀ vp ∈ vizinhos, dlookup vizinhos vp.1 = some vp.2 := by
                intro vp hvp
                refine dlookup_of_mem_nodup hndv ?_
                rw [Prod.mk.eta]
                exact hvp
              have out := relaxAll_spec (s := s) hGva vizinhos
                { st with fila_prioridade := resto } st2 hrel
                (invCore_fila hInv.1 resto (popMin_subset hpop))
                hva_dist hrest ?hpend
              case hpend =>
                intro w n hw hwne
                rcases hInv.2 w n hw with ⟨d0, hmem0, hle0⟩ | hrel2
                · left
                  refine ⟨d0, ?_, hle0⟩
                  refine popMin_mem_rest hpop _ hmem0 ?_
                  intro heq
                  simp only [Prod.mk.injEq] at heq
                  exact hwne heq.2
                · exact Or.inr hrel2
              have hInv2 : Inv g s st2 := by
                refine ⟨out.core, ?_⟩
                intro u n hu
                by_cases hune : u = va
                · subst hune
                  have hn : n = da := by
                    rw [out.distU] at hu
                    exact Option.some_inj.mp (Option.some_inj.mp hu.symm)
                  subst hn
                  exact Or.inr ⟨vizinhos, hGva, out.relaxado⟩
                · exact out.pendOut u n hu hune
              exact ih st2 d c hInv2 h

/-- At loop end every finite vertex has all its outgoing edges relaxed. -/
theorem inv_end_relaxado {g : Grafo} {s : String}
    {d : List (String × Option Nat)} {c : List (String × List String)}
    (hInv : Inv g s ⟨d, c, []⟩) :
    ∀ u n, dlookup d u = some (some n) →
      ∃ adjs, dlookup g u = some adjs ∧
        ∀ vp ∈ adjs, ∃ m, dlookup d vp.1 = some (some m) ∧ m ≤ n + vp.2 := by
  intro u n hu
  rcases hInv.2 u n hu with ⟨d0, hmem, _⟩ | h
  · exact absurd hmem (List.not_mem_nil _)
  · exact h

/-- At loop end the table value is a lower bound on the weight of every path
from the source. -/
theorem inv_end_lower {g : Grafo} {s : String}
    {d : List (String × Option Nat)} {c : List (String × List String)}
    (hInv : Inv g s ⟨d, c, []⟩) :
    ∀ v n, CaminhoAte g s v n → ∃ m, dlookup d v = some (some m) ∧ m ≤ n := by
  intro v n hcam
  induction hcam with
  | base => exact ⟨0, hInv.1.dist0, Nat.le_refl 0⟩
  | @passo u2 v2 d2 w2 hc1 he ih =>
    obtain ⟨m, hm, hmle⟩ := ih
    obtain ⟨adjs, hadj, hrel⟩ := inv_end_relaxado hInv u2 m hm
    have hlk : dlookup adjs v2 = some w2 := by
      unfold aresta at he
      rw [hadj] at he
      exact he
    obtain ⟨m2, hm2, hm2le⟩ := hrel (v2, w2) (mem_of_dlookup hlk)
    exact ⟨m2, hm2, by omega⟩

/-- Main correctness lemma: any run of `dijkstra` that returns normally
satisfies `DijkstraCorrect`. -/
theorem dijkstra_correct {g : Grafo} {s : String} {fuel : Nat}
    {d : List (String × Option Nat)} {c : List (String × List String)}
    (hnd : ∀ p ∈ g, (keysOf p.2).Nodup) (hs : s ∈ keysOf g)
    (h : dijkstra g s fuel = .ok d c) :
    DijkstraCorrect g s d c := by
  have hInv := dijkstra_loop_inv hnd fuel _ d c (inv_init hs) h
  exact ⟨hInv.1.keysDist, hInv.1.keysCam, hInv.1.dist0, hInv.1.cam0, hInv.1.camOk,
    hInv.1.camInf, fun v n hcam => inv_end_lower hInv v n hcam⟩

/-- An infinite table entry means no directed path exists from the source. -/
theorem dijkstra_inf_no_path {g : Grafo} {s : String}
    {d : List (String × Option Nat)} {c : List (String × List String)}
    (hcor : DijkstraCorrect g s d c)
    {v : String} (hv : dlookup d v = some none) :
    ∀ p, ¬ IsCaminho g s v p := by
  intro p hp
  obtain ⟨n, hn⟩ := pesoCaminho_isSome_of_chain g p hp.2.2
  have hcam := caminhoAte_of_isCaminho hp hn
  obtain ⟨m, hm, _⟩ := hcor.lower v n hcam
  rw [hv] at hm
  exact Option.noConfusion (Option.some_inj.mp hm)

/-- Each table entry is exactly the infimum of the path weights — the minimum
cumulative weight of any directed path, or `+∞` when no path exists. -/
theorem dijkstra_dist_sInf {g : Grafo} {s : String}
    {d : List (String × Option Nat)} {c : List (String × List String)}
    (hcor : DijkstraCorrect g s d c) (v : String) (hv : v ∈ keysOf g) :
    ∃ dv, dlookup d v = some dv ∧ paraENat dv = sInf (pesosAlcance g s v) := by
  have hvd : v ∈ keysOf d := by rw [hcor.keysDist]; exact hv
  obtain ⟨dv, hdv⟩ := dlookup_isSome_of_mem_keysOf hvd
  refine ⟨dv, hdv, le_antisymm ?_ ?_⟩
  · apply le_sInf
    rintro w ⟨p, n, hp, hn, rfl⟩
    have hcam := caminhoAte_of_isCaminho hp hn
    obtain ⟨m, hm, hmle⟩ := hcor.lower v n hcam
    rw [hdv] at hm
    have hdvm : dv = some m := Option.some_inj.mp hm
    rw [hdvm]
    simp only [paraENat]
    exact_mod_cast hmle
  · cases dv with
    | none =>
      simp only [paraENat]
      exact le_top
    | some n =>
      apply sInf_le
      obtain ⟨p, hpc, hpis, hppeso⟩ := hcor.camOk v n hdv
      exact ⟨p, n, hpis, hppeso, rfl⟩

theorem peso_le_somaPesos {g : Grafo} {u : String} {adj : List (String × Nat)}
    {v : String} {w : Nat} (hu : (u, adj) ∈ g) (hv : (v, w) ∈ adj) :
    w ≤ somaPesos g := by
  have h1 : w ≤ (adj.map Prod.snd).sum := by
    apply List.single_le_sum (fun x _ => Nat.zero_le x)
    exact List.mem_map.mpr ⟨(v, w), hv, rfl⟩
  have h2 : (adj.map Prod.snd).sum ≤ somaPesos g := by
    apply List.single_le_sum (fun x _ => Nat.zero_le x)
    exact List.mem_map.mpr ⟨(u, adj), hu, rfl⟩
  omega

theorem finCount_le_length (dist : List (String × Option Nat)) :
    finCount dist ≤ dist.length :=
  List.countP_le_length _

theorem finCount_dset_some {dist : List (String × Option Nat)} {k : String} {m : Nat}
    (h : dlookup dist k = some (some m)) (v : Nat) :
    finCount (dset dist k (some v)) = finCount dist := by
  induction dist with
  | nil => simp [dlookup] at h
  | cons hd tl ih =>
    obtain ⟨a, b⟩ := hd
    by_cases ha : a = k
    · simp only [dlookup, ha, if_true, Option.some.injEq] at h
      subst h
      simp [dset, ha, finCount, List.countP_cons]
    · simp only [dlookup, ha, if_false] at h
      have hh := ih h
      simp only [finCount] at hh
      simp only [dset, ha, if_false, finCount, List.countP_cons]
      omega

theorem finCount_dset_none {dist : List (String × Option Nat)} {k : String}
    (h : dlookup dist k = some none) (v : Nat) :
    finCount (dset dist k (some v)) = finCount dist + 1 := by
  induction dist with
  | nil => simp [dlookup] at h
  | cons hd tl ih =>
    obtain ⟨a, b⟩ := hd
    by_cases ha : a = k
    · simp only [dlookup, ha, if_true, Option.some.injEq] at h
      subst h
      simp [dset, ha, finCount, List.countP_cons]
    · simp only [dlookup, ha, if_false] at h
      have hh := ih h
      simp only [finCount] at hh
      simp only [dset, ha, if_false, finCount, List.countP_cons]
      omega

theorem dsum_dset {K : Nat} {dist : List (String × Option Nat)} {k : String}
    {dv : Option Nat} (h : dlookup dist k = some dv) (n : Nat) :
    dsum K (dset dist k (some n)) + phiOpt K dv = dsum K dist + n := by
  induction dist with
  | nil => simp [dlookup] at h
  | cons hd tl ih =>
    obtain ⟨a, b⟩ := hd
    by_cases ha : a = k
    · simp only [dlookup, ha, if_true, Option.some.injEq] at h
      subst h
      simp only [dset, ha, if_true, dsum, List.map_cons, List.sum_cons, phiOpt]
      omega
    · simp only [dlookup, ha, if_false] at h
      simp only [dset, ha, if_false, dsum, List.map_cons, List.sum_cons] at ih ⊢
      have := ih h
      omega

theorem length_dset_of_mem {α : Type} {m : List (String × α)} {k : String} (v : α)
    (h : k ∈ keysOf m) : (dset m k v).length = m.length := by
  have hk := keysOf_dset_of_mem v h
  have h1 : (keysOf (dset m k v)).length = (keysOf m).length := by rw [hk]
  simpa [keysOf, List.length_map] using h1

/-- On a closed graph the neighbour loop never raises, keeps the key sets,
heap-key closure, value bound and the popped vertex's value, and does not
increase the termination measure. -/
theorem relaxAll_termina {g : Grafo} (hFech : Fechado g) {u : String} {dAtual : Nat}
    {adjs : List (String × Nat)} (hGu : dlookup g u = some adjs) :
    ∀ (rest : List (String × Nat)) (st : DijkState),
      (∀ vp ∈ rest, vp ∈ adjs) →
      keysOf st.distancias = keysOf g →
      keysOf st.caminhos = keysOf g →
      (∀ e ∈ st.fila_prioridade, e.2 ∈ keysOf g) →
      DistBound g st.distancias →
      dlookup st.distancias u = some (some dAtual) →
      ∃ st', relaxAll u dAtual rest st = some st' ∧
        keysOf st'.distancias = keysOf g ∧
        keysOf st'.caminhos = keysOf g ∧
        (∀ e ∈ st'.fila_prioridade, e.2 ∈ keysOf g) ∧
        DistBound g st'.distancias ∧
        dlookup st'.distancias u = some (some dAtual) ∧
        (g.length * somaPesos g + 2) * dsum (g.length * somaPesos g) st'.distancias
            + st'.fila_prioridade.length ≤
          (g.length * somaPesos g + 2) * dsum (g.length * somaPesos g) st.distancias
            + st.fila_prioridade.length := by
  intro rest
  induction rest with
  | nil =>
    intro st hadj hkd hkc hfk hJ hu
    exact ⟨st, rfl, hkd, hkc, hfk, hJ, hu, Nat.le_refl _⟩
  | cons vp0 rest' ih =>
    obtain ⟨vizinho, peso⟩ := vp0
    intro st hadj hkd hkc hfk hJ hu
    have hmemG : (u, adjs) ∈ g := mem_of_dlookup hGu
    have hvpAdj : (vizinho, peso) ∈ adjs := hadj (vizinho, peso) (List.mem_cons_self _ _)
    have hvizG : vizinho ∈ keysOf g := hFech (u, adjs) hmemG (vizinho, peso) hvpAdj
    have hvizD : vizinho ∈ keysOf st.distancias := by rw [hkd]; exact hvizG
    obtain ⟨dviz, hdviz⟩ := dlookup_isSome_of_mem_keysOf hvizD
    have hpesoM : peso ≤ somaPesos g := peso_le_somaPesos hmemG hvpAdj
    have hdAM : dAtual ≤ finCount st.distancias * somaPesos g := hJ u dAtual hu
    have hlen : st.distancias.length = g.length := by
      have h1 : (keysOf st.distancias).length = (keysOf g).length := by rw [hkd]
      simpa [keysOf, List.length_map] using h1
    by_cases hlt : ltOpt (dAtual + peso) dviz = true
    · have hvu : vizinho ≠ u := by
        intro he
        rw [he, hu] at hdviz
        have hd := Option.some_inj.mp hdviz
        rw [← hd] at hlt
        have := ltOpt_true_some hlt
        omega
      have huC : u ∈ keysOf st.caminhos := by
        rw [hkc, ← hkd]
        exact mem_keysOf_of_dlookup hu
      obtain ⟨cu, hcu⟩ := dlookup_isSome_of_mem_keysOf huC
      -- the updated middle state
      have hvizC : vizinho ∈ keysOf st.caminhos := by rw [hkc]; exact hvizG
      have hkd2 : keysOf (dset st.distancias vizinho (some (dAtual + peso))) = keysOf g := by
        rw [keysOf_dset_of_mem _ hvizD, hkd]
      have hkc2 : keysOf (dset st.caminhos vizinho (cu ++ [vizinho])) = keysOf g := by
        rw [keysOf_dset_of_mem _ hvizC, hkc]
      -- value bound at the middle state
      have hJ2 : DistBound g (dset st.distancias vizinho (some (dAtual + peso))) := by
        intro v n hv
        by_cases hvv : v = vizinho
        · subst hvv
          rw [dlookup_dset_self] at hv
          have hn : dAtual + peso = n := Option.some_inj.mp (Option.some_inj.mp hv)
          cases hdvc : dviz with
          | none =>
            rw [hdvc] at hdviz
            rw [finCount_dset_none hdviz]
            have := Nat.mul_le_mul_right (somaPesos g) (Nat.le_refl (finCount st.distancias + 1))
            have hstep : dAtual + peso ≤ (finCount st.distancias + 1) * somaPesos g := by
              rw [Nat.succ_mul]
              omega
            omega
          | some m =>
            rw [hdvc] at hdviz hlt
            have hcand := ltOpt_true_some hlt
            rw [finCount_dset_some hdviz]
            have hmB := hJ v m hdviz
            omega
        · rw [dlookup_dset_ne _ _ hvv] at hv
          have hB := hJ v n hv
          cases hdvc : dviz with
          | none =>
            rw [hdvc] at hdviz
            rw [finCount_dset_none hdviz]
            have : finCount st.distancias * somaPesos g
                ≤ (finCount st.distancias + 1) * somaPesos g := by
              rw [Nat.succ_mul]
              omega
            omega
          | some m =>
            rw [hdvc] at hdviz
            rw [finCount_dset_some hdviz]
            exact hB
      have hu2 : dlookup (dset st.distancias vizinho (some (dAtual + peso))) u
          = some (some dAtual) := by
        rw [dlookup_dset_ne _ _ (Ne.symm hvu)]
        exact hu
      have hfk2 : ∀ e ∈ st.fila_prioridade ++ [(dAtual + peso, vizinho)],
          e.2 ∈ keysOf g := by
        intro e he
        rcases List.mem_append.mp he with he | he
        · exact hfk e he
        · simp only [List.mem_singleton] at he
          rw [he]
          exact hvizG
      have hout := ih
        { distancias := dset st.distancias vizinho (some (dAtual + peso))
          caminhos := dset st.caminhos vizinho (cu ++ [vizinho])
          fila_prioridade := st.fila_prioridade ++ [(dAtual + peso, vizinho)] }
        (fun vp hvp => hadj vp (List.mem_cons_of_mem _ hvp))
        hkd2 hkc2 hfk2 hJ2 hu2
      obtain ⟨st', hrel', hkd', hkc', hfk', hJ', hu', hmu'⟩ := hout
      refine ⟨st', ?_, hkd', hkc', hfk', hJ', hu', ?_⟩
      · simp only [relaxAll, hdviz, if_pos hlt, hcu]
        exact hrel'
      · -- the middle state strictly decreased the measure
        have hsum := dsum_dset (K := g.length * somaPesos g) hdviz (dAtual + peso)
        have hmid : dsum (g.length * somaPesos g)
              (dset st.distancias vizinho (some (dAtual + peso))) + 1
            ≤ dsum (g.length * somaPesos g) st.distancias := by
          cases hdvc : dviz with
          | none =>
            rw [hdvc] at hsum
            simp only [phiOpt] at hsum
            -- new value is bounded by K
            have hcandK : dAtual + peso ≤ g.length * somaPesos g := by
              have h1 := hJ2 vizinho (dAtual + peso) (dlookup_dset_self _ _ _)
              have h2 : finCount (dset st.distancias vizinho (some (dAtual + peso)))
                  ≤ g.length := by
                have := finCount_le_length (dset st.distancias vizinho
                  (some (dAtual + peso)))
                rw [length_dset_of_mem _ hvizD, hlen] at this
                exact this
              have h3 : finCount (dset st.distancias vizinho (some (dAtual + peso)))
                    * somaPesos g ≤ g.length * somaPesos g :=
                Nat.mul_le_mul_right _ h2
              omega
            omega
          | some m =>
            rw [hdvc] at hsum hdviz hlt
            simp only [phiOpt] at hsum
            have hcand := ltOpt_true_some hlt
            omega
        have hK1 : (g.length * somaPesos g + 2)
              * (dsum (g.length * somaPesos g)
                  (dset st.distancias vizinho (some (dAtual + peso))) + 1)
            ≤ (g.length * somaPesos g + 2)
              * dsum (g.length * somaPesos g) st.distancias :=
          Nat.mul_le_mul_left _ hmid
        rw [Nat.mul_succ] at hK1
        have hlenf : (st.fila_prioridade ++ [(dAtual + peso, vizinho)]).length
            = st.fila_prioridade.length + 1 := by simp
        dsimp only at hmu'
        rw [hlenf] at hmu'
        omega
    · have hout := ih st
        (fun vp hvp => hadj vp (List.mem_cons_of_mem _ hvp))
        hkd hkc hfk hJ hu
      obtain ⟨st', hrel', hkd', hkc', hfk', hJ', hu', hmu'⟩ := hout
      refine ⟨st', ?_, hkd', hkc', hfk', hJ', hu', hmu'⟩
      simp only [relaxAll, hdviz, if_neg hlt]
      exact hrel'

/-- On a closed dict-of-dicts graph the loop reaches the empty heap within
finitely many iterations: some fuel returns normally. -/
theorem dijkstra_loop_termina {g : Grafo} {s : String}
    (hnd : ∀ p ∈ g, (keysOf p.2).Nodup) (hFech : Fechado g) :
    ∀ (N : Nat) (st : DijkState),
      (g.length * somaPesos g + 2) * dsum (g.length * somaPesos g) st.distancias
          + st.fila_prioridade.length ≤ N →
      Inv g s st →
      (∀ e ∈ st.fila_prioridade, e.2 ∈ keysOf g) →
      DistBound g st.distancias →
      ∃ fuel d c, dijkstra_loop g fuel st = .ok d c := by
  intro N
  induction N with
  | zero =>
    intro st hmu hInv hfk hJ
    have hlen : st.fila_prioridade.length = 0 := by omega
    have hfil : st.fila_prioridade = [] := List.length_eq_zero.mp hlen
    refine ⟨0, st.distancias, st.caminhos, ?_⟩
    rw [dijkstra_loop]
    have hpop : popMin st.fila_prioridade = none := (popMin_eq_none _).mpr hfil
    simp only [hpop]
  | succ N' ih =>
    intro st hmu hInv hfk hJ
    cases hpop : popMin st.fila_prioridade with
    | none =>
      refine ⟨0, st.distancias, st.caminhos, ?_⟩
      rw [dijkstra_loop]
      simp only [hpop]
    | some pr =>
      obtain ⟨⟨da, va⟩, resto⟩ := pr
      have hvaG : va ∈ keysOf g := hfk (da, va) (popMin_mem hpop)
      have hvaD : va ∈ keysOf st.distancias := by rw [hInv.1.keysDist]; exact hvaG
      obtain ⟨dva, hdva⟩ := dlookup_isSome_of_mem_keysOf hvaD
      have hlenq : st.fila_prioridade.length = resto.length + 1 := popMin_length hpop
      have hfkR : ∀ e ∈ resto, e.2 ∈ keysOf g :=
        fun e he => hfk e (popMin_subset hpop e he)
      by_cases hgt : gtOpt da dva = true
      · have hInvPop : Inv g s { st with fila_prioridade := resto } := by
          refine ⟨invCore_fila hInv.1 resto (popMin_subset hpop), ?_⟩
          intro u n hu
          rcases hInv.2 u n hu with ⟨d0, hmem0, hle0⟩ | hrel
          · left
            refine ⟨d0, ?_, hle0⟩
            refine popMin_mem_rest hpop _ hmem0 ?_
            intro heq
            simp only [Prod.mk.injEq] at heq
            obtain ⟨h1, h2⟩ := heq
            subst h2
            rw [hu] at hdva
            have hdvn : dva = some n := (Option.some_inj.mp hdva).symm
            obtain ⟨m, hm, hmlt⟩ := (gtOpt_true_iff _ _).mp hgt
            rw [hdvn] at hm
            have : m = n := (Option.some_inj.mp hm).symm
            omega
          · exact Or.inr hrel
        obtain ⟨fuel, d, c, hloop⟩ := ih { st with fila_prioridade := resto }
          (by dsimp only; omega) hInvPop hfkR hJ
        refine ⟨fuel + 1, d, c, ?_⟩
        rw [dijkstra_loop]
        simp only [hpop, hdva]
        rw [if_pos hgt]
        exact hloop
      · have hva_dist : dlookup st.distancias va = some (some da) := by
          obtain ⟨dv0, hlk, hle⟩ := hInv.1.filaDom da va (popMin_mem hpop)
          have hdvv : dva = some dv0 := by
            rw [hlk] at hdva
            exact (Option.some_inj.mp hdva).symm
          have hnlt : ¬ (dv0 < da) := by
            intro hlt2
            exact hgt ((gtOpt_true_iff _ _).mpr ⟨dv0, hdvv, hlt2⟩)
          have : dv0 = da := by omega
          rw [hlk, this]
        obtain ⟨vizinhos, hGva⟩ := dlookup_isSome_of_mem_keysOf hvaG
        obtain ⟨st2, hrel, hkd2, hkc2, hfk2, hJ2, hu2, hmu2⟩ :=
          relaxAll_termina hFech hGva vizinhos { st with fila_prioridade := resto }
            (fun vp hvp => hvp) hInv.1.keysDist hInv.1.keysCam hfkR hJ hva_dist
        have hndv : (keysOf vizinhos).Nodup := hnd _ (mem_of_dlookup hGva)
        have hrest : ∀ vp ∈ vizinhos, dlookup vizinhos vp.1 = some vp.2 := by
          intro vp hvp
          refine dlookup_of_mem_nodup hndv ?_
          rw [Prod.mk.eta]
          exact hvp
        have out := relaxAll_spec (s := s) hGva vizinhos
          { st with fila_prioridade := resto } st2 hrel
          (invCore_fila hInv.1 resto (popMin_subset hpop))
          hva_dist hrest ?hpend
        case hpend =>
          intro w n hw hwne
          rcases hInv.2 w n hw with ⟨d0, hmem0, hle0⟩ | hrel2
          · left
            refine ⟨d0, ?_, hle0⟩
            refine popMin_mem_rest hpop _ hmem0 ?_
            intro heq
            simp only [Prod.mk.injEq] at heq
            exact hwne heq.2
          · exact Or.inr hrel2
        have hInv2 : Inv g s st2 := by
          refine ⟨out.core, ?_⟩
          intro u n hu
          by_cases hune : u = va
          · subst hune
            have hn : n = da := by
              rw [out.distU] at hu
              exact Option.some_inj.mp (Option.some_inj.mp hu.symm)
            subst hn
            exact Or.inr ⟨vizinhos, hGva, out.relaxado⟩
          · exact out.pendOut u n hu hune
        obtain ⟨fuel, d, c, hloop⟩ := ih st2
          (by dsimp only at hmu2; omega) hInv2 hfk2 hJ2
        refine ⟨fuel + 1, d, c, ?_⟩
        rw [dijkstra_loop]
        simp only [hpop, hdva]
        rw [if_neg hgt]
        simp only [hGva, hrel]
        exact hloop

/-- Full termination: on a dict-of-dicts graph that contains the source and
mentions only its own keys, some finite fuel makes `dijkstra` return
normally. -/
theorem dijkstra_termina {g : Grafo} {s : String} (hdict : BomGrafo g)
    (hs : s ∈ keysOf g) (hFech : Fechado g) :
    ∃ fuel d c, dijkstra g s fuel = .ok d c := by
  have hJ0 : DistBound g (dijkstra_init g s).distancias := by
    intro v n hv
    simp only [dijkstra_init] at hv
    by_cases hvs : v = s
    · subst hvs
      rw [dlookup_dset_self] at hv
      have hn : (0:Nat) = n := Option.some_inj.mp (Option.some_inj.mp hv)
      omega
    · rw [dlookup_dset_ne _ _ hvs, dlookup_map_const] at hv
      by_cases hvk : v ∈ keysOf g
      · rw [if_pos hvk] at hv
        exact absurd (Option.some_inj.mp hv) (by simp)
      · rw [if_neg hvk] at hv
        exact Option.noConfusion hv
  have hfk0 : ∀ e ∈ (dijkstra_init g s).fila_prioridade, e.2 ∈ keysOf g := by
    intro e he
    simp only [dijkstra_init, List.mem_singleton] at he
    rw [he]
    exact hs
  exact dijkstra_loop_termina hdict.2 hFech _ (dijkstra_init g s)
    (Nat.le_refl _) (inv_init hs) hfk0 hJ0

/-- A run that does not exhaust its fuel returns the same outcome for any
larger fuel: the fuel bound is an artefact of the embedding, not of the
algorithm. -/
theorem dijkstra_loop_mono {g : Grafo} :
    ∀ (f1 : Nat) (st : DijkState) (r : DijkRes),
      dijkstra_loop g f1 st = r → r ≠ .semCombustivel →
      ∀ f2, f1 ≤ f2 → dijkstra_loop g f2 st = r := by
  intro f1
  induction f1 with
  | zero =>
    intro st r h hne f2 _
    rw [dijkstra_loop] at h
    rw [dijkstra_loop]
    cases hpop : popMin st.fila_prioridade with
    | none =>
      simp only [hpop] at h ⊢
      exact h
    | some pr =>
      obtain ⟨⟨da, va⟩, resto⟩ := pr
      simp only [hpop] at h
      exact absurd h.symm hne
  | succ f1' ih =>
    intro st r h hne f2 hle
    obtain ⟨f2', rfl⟩ : ∃ f2', f2 = f2' + 1 := ⟨f2 - 1, by omega⟩
    rw [dijkstra_loop] at h
    rw [dijkstra_loop]
    cases hpop : popMin st.fila_prioridade with
    | none =>
      simp only [hpop] at h ⊢
      exact h
    | some pr =>
      obtain ⟨⟨da, va⟩, resto⟩ := pr
      simp only [hpop] at h ⊢
      cases hdv : dlookup st.distancias va with
      | none =>
        simp only [hdv] at h ⊢
        exact h
      | some dv =>
        simp only [hdv] at h ⊢
        by_cases hgt : gtOpt da dv = true
        · rw [if_pos hgt] at h ⊢
          exact ih _ r h hne f2' (by omega)
        · rw [if_neg hgt] at h ⊢
          cases hGva : dlookup g va with
          | none =>
            simp only [hGva] at h ⊢
            exact h
          | some vizinhos =>
            simp only [hGva] at h ⊢
            cases hrel : relaxAll va da vizinhos { st with fila_prioridade := resto } with
            | none =>
              rw [hrel] at h
              exact h
            | some st2 =>
              rw [hrel] at h
              exact ih st2 r h hne f2' (by omega)

theorem keysOf_map_fst_eq {α : Type} (f : String × α → String × α)
    (hf : ∀ p, (f p).1 = p.1) (m : List (String × α)) :
    keysOf (m.map f) = keysOf m := by
  induction m with
  | nil => rfl
  | cons hd tl ih =>
    simp only [List.map_cons, keysOf] at ih ⊢
    rw [hf hd, ih]

theorem keysOf_removeAresta (g : Grafo) (u x : String) :
    keysOf (removeAresta g u x) = keysOf g :=
  keysOf_map_fst_eq _ (fun p => by by_cases h : p.1 = u <;> simp [h]) g

theorem keysOf_addAresta (g : Grafo) (u x : String) (w : Nat) :
    keysOf (addAresta g u x w) = keysOf g :=
  keysOf_map_fst_eq _ (fun p => by by_cases h : p.1 = u <;> simp [h]) g

theorem dlookup_removeAresta (g : Grafo) (u x a : String) :
    dlookup (removeAresta g u x) a =
      if a = u then (dlookup g a).map (fun adj => dremove adj x) else dlookup g a := by
  induction g with
  | nil =>
    by_cases hau : a = u <;> simp [removeAresta, dlookup, hau]
  | cons hd tl ih =>
    obtain ⟨k, adj⟩ := hd
    simp only [removeAresta, List.map_cons] at ih ⊢
    by_cases hku : k = u
    · rw [if_pos hku]
      simp only [dlookup]
      by_cases hka : k = a
      · have hau : a = u := by rw [← hka, hku]
        simp [hka, hau]
      · simp only [hka, if_false]
        exact ih
    · rw [if_neg hku]
      simp only [dlookup]
      by_cases hka : k = a
      · have hau : ¬ (a = u) := by rw [← hka]; exact hku
        simp [hka, hau]
      · simp only [hka, if_false]
        exact ih

theorem dlookup_addAresta (g : Grafo) (u x : String) (w : Nat) (a : String) :
    dlookup (addAresta g u x w) a =
      if a = u then (dlookup g a).map (fun adj => dset adj x w) else dlookup g a := by
  induction g with
  | nil =>
    by_cases hau : a = u <;> simp [addAresta, dlookup, hau]
  | cons hd tl ih =>
    obtain ⟨k, adj⟩ := hd
    simp only [addAresta, List.map_cons] at ih ⊢
    by_cases hku : k = u
    · rw [if_pos hku]
      simp only [dlookup]
      by_cases hka : k = a
      · have hau : a = u := by rw [← hka, hku]
        simp [hka, hau]
      · simp only [hka, if_false]
        exact ih
    · rw [if_neg hku]
      simp only [dlookup]
      by_cases hka : k = a
      · have hau : ¬ (a = u) := by rw [← hka]; exact hku
        simp [hka, hau]
      · simp only [hka, if_false]
        exact ih

theorem dlookup_dremove {α : Type} :
    ∀ {m : List (String × α)}, (keysOf m).Nodup → ∀ (x k : String) {v : α},
      dlookup (dremove m x) k = some v → dlookup m k = some v := by
  intro m
  induction m with
  | nil => intro _ x k v h; simp [dremove, dlookup] at h
  | cons hd tl ih =>
    intro hnd x k v h
    obtain ⟨a, b⟩ := hd
    simp only [keysOf, List.map_cons, List.nodup_cons] at hnd
    by_cases hax : a = x
    · simp only [dremove, hax, if_true] at h
      have hk : k ∈ keysOf tl := mem_keysOf_of_dlookup h
      have hank : ¬ (a = k) := by
        intro he
        rw [he] at hnd
        exact hnd.1 hk
      simp [dlookup, hank, h]
    · simp only [dremove, hax, if_false, dlookup] at h ⊢
      by_cases hak : a = k
      · simp only [hak, if_true] at h ⊢
        exact h
      · simp only [hak, if_false] at h ⊢
        exact ih hnd.2 x k h

/-- Every edge of the graph with one edge removed is an edge of the original
graph, with the same weight. -/
theorem aresta_removeAresta {g : Grafo} (hnd : ∀ p ∈ g, (keysOf p.2).Nodup)
    {u x a b : String} {w : Nat} (h : aresta (removeAresta g u x) a b = some w) :
    aresta g a b = some w := by
  unfold aresta at h ⊢
  rw [dlookup_removeAresta] at h
  by_cases hau : a = u
  · rw [if_pos hau] at h
    cases hga : dlookup g a with
    | none =>
      rw [hga] at h
      simp at h
    | some adj =>
      rw [hga] at h
      exact dlookup_dremove (hnd (a, adj) (mem_of_dlookup hga)) x b h
  · rw [if_neg hau] at h
    exact h

/-- Every edge of the graph is still an edge after a fresh edge is added,
with the same weight. -/
theorem aresta_addAresta {g : Grafo} {u x : String} {w0 : Nat}
    (hux : aresta g u x = none) {a b : String} {w : Nat}
    (h : aresta g a b = some w) : aresta (addAresta g u x w0) a b = some w := by
  unfold aresta at h ⊢
  rw [dlookup_addAresta]
  by_cases hau : a = u
  · rw [if_pos hau]
    cases hga : dlookup g a with
    | none =>
      rw [hga] at h
      simp at h
    | some adj =>
      rw [hga] at h
      have hbx : ¬ (b = x) := by
        intro he
        unfold aresta at hux
        rw [hau] at hga
        rw [hga] at hux
        have hux2 : dlookup adj x = none := hux
        rw [he] at h
        have h2 : dlookup adj x = some w := h
        rw [hux2] at h2
        exact Option.noConfusion h2
      show dlookup (dset adj x w0) b = some w
      rw [dlookup_dset_ne _ _ hbx]
      exact h
  · rw [if_neg hau]
    exact h

theorem keysOf_dremove_sublist {α : Type} (m : List (String × α)) (x : String) :
    (keysOf (dremove m x)).Sublist (keysOf m) := by
  induction m with
  | nil => simp [dremove, keysOf]
  | cons hd tl ih =>
    obtain ⟨a, b⟩ := hd
    by_cases hax : a = x
    · simp only [dremove, hax, if_true, keysOf, List.map_cons]
      exact (List.Sublist.refl _).cons _
    · simp only [dremove, hax, if_false, keysOf, List.map_cons]
      exact ih.cons₂ _

theorem bomGrafo_removeAresta {g : Grafo} (hb : BomGrafo g) (u x : String) :
    BomGrafo (removeAresta g u x) := by
  constructor
  · rw [keysOf_removeAresta]
    exact hb.1
  · intro p hp
    simp only [removeAresta, List.mem_map] at hp
    obtain ⟨q, hq, hfq⟩ := hp
    by_cases hqu : q.1 = u
    · rw [if_pos hqu] at hfq
      rw [← hfq]
      exact (hb.2 q hq).sublist (keysOf_dremove_sublist q.2 x)
    · rw [if_neg hqu] at hfq
      rw [← hfq]
      exact hb.2 q hq

theorem keysOf_dset_of_not_mem {α : Type} {m : List (String × α)} {k : String} (v : α)
    (h : k ∉ keysOf m) : keysOf (dset m k v) = keysOf m ++ [k] := by
  induction m with
  | nil => simp [dset, keysOf]
  | cons hd tl ih =>
    obtain ⟨a, b⟩ := hd
    simp only [keysOf, List.map_cons, List.mem_cons] at h
    push_neg at h
    obtain ⟨h1, h2⟩ := h
    have hak : ¬ (a = k) := fun he => h1 he.symm
    simp only [dset, hak, if_false, keysOf, List.map_cons, List.cons_append]
    have := ih h2
    simp only [keysOf] at this
    rw [this]

theorem bomGrafo_addAresta {g : Grafo} (hb : BomGrafo g) {u x : String}
    (hux : aresta g u x = none) (w0 : Nat) :
    BomGrafo (addAresta g u x w0) := by
  constructor
  · rw [keysOf_addAresta]
    exact hb.1
  · intro p hp
    simp only [addAresta, List.mem_map] at hp
    obtain ⟨q, hq, hfq⟩ := hp
    by_cases hqu : q.1 = u
    · rw [if_pos hqu] at hfq
      rw [← hfq]
      have hlk : dlookup g u = some q.2 := by
        have hqmem : ((u : String), q.2) ∈ g := by
          rw [← hqu, Prod.mk.eta]
          exact hq
        exact dlookup_of_mem_nodup hb.1 hqmem
      have hxk : x ∉ keysOf q.2 := by
        intro hmem
        obtain ⟨v, hv⟩ := dlookup_isSome_of_mem_keysOf hmem
        unfold aresta at hux
        rw [hlk] at hux
        have hnone : dlookup q.2 x = none := hux
        rw [hnone] at hv
        exact Option.noConfusion hv
      show (keysOf (dset q.2 x w0)).Nodup
      rw [keysOf_dset_of_not_mem _ hxk]
      have hnd := hb.2 q hq
      simp [List.nodup_append, hnd, hxk]
    · rw [if_neg hqu] at hfq
      rw [← hfq]
      exact hb.2 q hq

theorem pesoCaminho_mono {g1 g2 : Grafo}
    (h : ∀ a b w, aresta g1 a b = some w → aresta g2 a b = some w) :
    ∀ (p : List String) (n : Nat),
      pesoCaminho g1 p = some n → pesoCaminho g2 p = some n := by
  intro p
  induction p with
  | nil => exact fun n hn => hn
  | cons xx tl ih =>
    cases tl with
    | nil => exact fun n hn => hn
    | cons y tl2 =>
      intro n hn
      simp only [pesoCaminho] at hn ⊢
      cases ha : aresta g1 xx y with
      | none =>
        rw [ha] at hn
        simp at hn
      | some w =>
        rw [ha] at hn
        rw [h xx y w ha]
        cases hp : pesoCaminho g1 (y :: tl2) with
        | none =>
          rw [hp] at hn
          simp at hn
        | some m =>
          rw [hp] at hn
          rw [ih m hp]
          exact hn

theorem isCaminho_mono {g1 g2 : Grafo}
    (h : ∀ a b w, aresta g1 a b = some w → aresta g2 a b = some w)
    {s v : String} {p : List String} (hp : IsCaminho g1 s v p) : IsCaminho g2 s v p := by
  obtain ⟨h1, h2, h3⟩ := hp
  refine ⟨h1, h2, h3.imp ?_⟩
  intro a b hab
  simp only [Liga, Option.isSome_iff_exists] at hab ⊢
  obtain ⟨w, hw⟩ := hab
  exact ⟨w, h a b w hw⟩

/-- Edge-wise inclusion of graphs gives inclusion of path-weight sets. -/
theorem pesosAlcance_mono {g1 g2 : Grafo}
    (h : ∀ a b w, aresta g1 a b = some w → aresta g2 a b = some w) (s v : String) :
    pesosAlcance g1 s v ⊆ pesosAlcance g2 s v := by
  rintro w ⟨p, n, hp, hn, rfl⟩
  exact ⟨p, n, isCaminho_mono h hp, pesoCaminho_mono h p n hn, rfl⟩

set_option maxRecDepth 100000 in
theorem dijkstra_exemplo_eq :
    dijkstra grafo_exemplo "A" 30 = .ok distancias_exemplo caminhos_exemplo := by
  decide

set_option maxRecDepth 100000 in
theorem dijkstra_exemplo_eq31 :
    dijkstra grafo_exemplo "A" 31 = .ok distancias_exemplo caminhos_exemplo := by
  decide

theorem dijkstra_ilha_eq :
    dijkstra grafo_ilha "A" 10 = .ok distancias_ilha caminhos_ilha := by
  decide

theorem dijkstra_mono_eq :
    dijkstra grafo_mono "A" 10 = .ok distancias_mono caminhos_mono := by
  decide

theorem dijkstra_mono_rem_eq :
    dijkstra (removeAresta grafo_mono "A" "B") "A" 10
      = .ok distancias_mono_rem caminhos_mono_rem := by
  decide

theorem dijkstra_mono_add_eq :
    dijkstra (addAresta grafo_mono "B" "A" 1) "A" 10
      = .ok distancias_mono caminhos_mono := by
  decide

/-- Fuel is an embedding artefact at the level of `dijkstra` too. -/
theorem dijkstra_mono_fuel (g : Grafo) (s : String) (f1 : Nat) (r : DijkRes)
    (h : dijkstra g s f1 = r) (hne : r ≠ .semCombustivel) (f2 : Nat) (hle : f1 ≤ f2) :
    dijkstra g s f2 = r :=
  dijkstra_loop_mono f1 _ r h hne f2 hle

/-! ## The claims -/

/-- C1: for every graph (a Python dict of dicts, hence with `Nat` weights and
duplicate-free keys) whose key set contains the source, the distance dict
returned by `dijkstra` maps every vertex that appears as a key of the graph to
the minimum cumulative weight of any directed path from the source to that
vertex — the infimum in `ℕ∞` of the set of path weights, which is `⊤`
(positive infinity) when no path exists. -/
theorem claim_C1 (grafo : Grafo) (inicio : String) (fuel : Nat)
    (distancias : List (String × Option Nat)) (caminhos : List (String × List String))
    (hdict : BomGrafo grafo) (hs : inicio ∈ keysOf grafo)
    (hrun : dijkstra grafo inicio fuel = .ok distancias caminhos) :
    ∀ v ∈ keysOf grafo, ∃ dv, dlookup distancias v = some dv ∧
      paraENat dv = sInf (pesosAlcance grafo inicio v) :=
  fun v hv => dijkstra_dist_sInf (dijkstra_correct hdict.2 hs hrun) v hv

/-- Witness for C1: the example graph at vertex B. -/
theorem claim_C1_witness :
    ∃ dv, dlookup distancias_exemplo "B" = some dv ∧
      paraENat dv = sInf (pesosAlcance grafo_exemplo "A" "B") :=
  claim_C1 grafo_exemplo "A" 30 distancias_exemplo caminhos_exemplo
    (by decide) (by decide) dijkstra_exemplo_eq "B" (by decide)

/-- C2 refutation: on the literal example graph with source A the run returns
E:4 (via A→D→F→E of weight 1+2+1) and G:5 (via A→H→G of weight 2+3), not the
claimed E:5 and G:4. -/
theorem claim_C2_counterexample :
    dijkstra grafo_exemplo "A" 30 = .ok distancias_exemplo caminhos_exemplo ∧
    dlookup distancias_exemplo "E" ≠ some (some 5) ∧
    dlookup distancias_exemplo "G" ≠ some (some 4) :=
  ⟨dijkstra_exemplo_eq, by decide, by decide⟩

/-- C2 (amended): on the literal 9-vertex example graph with source A, solve
returns exactly the distances A:0, B:3, C:2, D:1, E:4, F:3, G:5, H:2, I:3. -/
theorem claim_C2 :
    dijkstra grafo_exemplo "A" 30 = .ok distancias_exemplo caminhos_exemplo ∧
    dlookup distancias_exemplo "A" = some (some 0) ∧
    dlookup distancias_exemplo "B" = some (some 3) ∧
    dlookup distancias_exemplo "C" = some (some 2) ∧
    dlookup distancias_exemplo "D" = some (some 1) ∧
    dlookup distancias_exemplo "E" = some (some 4) ∧
    dlookup distancias_exemplo "F" = some (some 3) ∧
    dlookup distancias_exemplo "G" = some (some 5) ∧
    dlookup distancias_exemplo "H" = some (some 2) ∧
    dlookup distancias_exemplo "I" = some (some 3) :=
  ⟨dijkstra_exemplo_eq, by decide, by decide, by decide, by decide, by decide,
   by decide, by decide, by decide, by decide⟩

/-- C3: for every dict-of-dicts graph whose key set contains the source, the
returned distance dict maps the source to 0 and the returned path dict maps
the source to the one-element sequence holding only the source. -/
theorem claim_C3 (grafo : Grafo) (inicio : String) (fuel : Nat)
    (distancias : List (String × Option Nat)) (caminhos : List (String × List String))
    (hdict : BomGrafo grafo) (hs : inicio ∈ keysOf grafo)
    (hrun : dijkstra grafo inicio fuel = .ok distancias caminhos) :
    dlookup distancias inicio = some (some 0) ∧
    dlookup caminhos inicio = some [inicio] :=
  have hcor := dijkstra_correct hdict.2 hs hrun
  ⟨hcor.dist0, hcor.cam0⟩

/-- Witness for C3: the example graph. -/
theorem claim_C3_witness :
    dlookup distancias_exemplo "A" = some (some 0) ∧
    dlookup caminhos_exemplo "A" = some ["A"] :=
  claim_C3 grafo_exemplo "A" 30 distancias_exemplo caminhos_exemplo
    (by decide) (by decide) dijkstra_exemplo_eq

/-- C4: for every dict-of-dicts graph whose key set contains the source, and
for every vertex whose returned distance is finite, the sum of the edge
weights over consecutive pairs of the returned path equals the returned
distance exactly. -/
theorem claim_C4 (grafo : Grafo) (inicio : String) (fuel : Nat)
    (distancias : List (String × Option Nat)) (caminhos : List (String × List String))
    (hdict : BomGrafo grafo) (hs : inicio ∈ keysOf grafo)
    (hrun : dijkstra grafo inicio fuel = .ok distancias caminhos) :
    ∀ v n, dlookup distancias v = some (some n) →
      ∃ p, dlookup caminhos v = some p ∧ pesoCaminho grafo p = some n := by
  intro v n hv
  obtain ⟨p, h1, _, h3⟩ := (dijkstra_correct hdict.2 hs hrun).camOk v n hv
  exact ⟨p, h1, h3⟩

/-- Witness for C4: the example graph at vertex E, distance 4. -/
theorem claim_C4_witness :
    ∃ p, dlookup caminhos_exemplo "E" = some p ∧
      pesoCaminho grafo_exemplo p = some 4 :=
  claim_C4 grafo_exemplo "A" 30 distancias_exemplo caminhos_exemplo
    (by decide) (by decide) dijkstra_exemplo_eq "E" 4 (by decide)

/-- C5: for every dict-of-dicts graph whose key set contains the source, and
for every vertex whose returned distance is positive infinity, the returned
path entry is the empty sequence and no directed path from the source to that
vertex exists in the graph. -/
theorem claim_C5 (grafo : Grafo) (inicio : String) (fuel : Nat)
    (distancias : List (String × Option Nat)) (caminhos : List (String × List String))
    (hdict : BomGrafo grafo) (hs : inicio ∈ keysOf grafo)
    (hrun : dijkstra grafo inicio fuel = .ok distancias caminhos) :
    ∀ v, dlookup distancias v = some none →
      dlookup caminhos v = some [] ∧ ∀ p, ¬ IsCaminho grafo inicio v p := by
  intro v hv
  have hcor := dijkstra_correct hdict.2 hs hrun
  exact ⟨hcor.camInf v hv, dijkstra_inf_no_path hcor hv⟩

/-- Witness for C5: the isolated vertex Z. -/
theorem claim_C5_witness :
    dlookup caminhos_ilha "Z" = some [] ∧
    ¬ IsCaminho grafo_ilha "A" "Z" ["A", "Z"] :=
  have h := claim_C5 grafo_ilha "A" 10 distancias_ilha caminhos_ilha
    (by decide) (by decide) dijkstra_ilha_eq "Z" (by decide)
  ⟨h.1, h.2 ["A", "Z"]⟩

/-- C6: two completed calls with the same graph and the same source return
identical distance dicts and identical path dicts (determinism; the fuel
parameter of the embedding does not influence a completed result). -/
theorem claim_C6 (grafo : Grafo) (inicio : String) (f1 f2 : Nat)
    (d1 d2 : List (String × Option Nat)) (c1 c2 : List (String × List String))
    (h1 : dijkstra grafo inicio f1 = .ok d1 c1)
    (h2 : dijkstra grafo inicio f2 = .ok d2 c2) :
    d1 = d2 ∧ c1 = c2 := by
  have hm1 := dijkstra_mono_fuel grafo inicio f1 (.ok d1 c1) h1
    (fun h => DijkRes.noConfusion h) (max f1 f2) (Nat.le_max_left _ _)
  have hm2 := dijkstra_mono_fuel grafo inicio f2 (.ok d2 c2) h2
    (fun h => DijkRes.noConfusion h) (max f1 f2) (Nat.le_max_right _ _)
  rw [hm1] at hm2
  injection hm2 with ha hb
  exact ⟨ha, hb⟩

/-- Witness for C6: the example graph, fuels 30 and 31. -/
theorem claim_C6_witness :
    distancias_exemplo = distancias_exemplo ∧ caminhos_exemplo = caminhos_exemplo :=
  claim_C6 grafo_exemplo "A" 30 31 distancias_exemplo distancias_exemplo
    caminhos_exemplo caminhos_exemplo dijkstra_exemplo_eq dijkstra_exemplo_eq31

/-- C7: removing any single edge never decreases any vertex's returned
distance, and adding any single fresh edge never increases it (distances
compared in `ℕ∞`, with `⊤` for infinity). -/
theorem claim_C7 (grafo : Grafo) (inicio u1 x1 u2 x2 : String) (w0 : Nat)
    (f0 f1 f2 : Nat)
    (d0 d1 d2 : List (String × Option Nat)) (c0 c1 c2 : List (String × List String))
    (hdict : BomGrafo grafo) (hs : inicio ∈ keysOf grafo)
    (hux : aresta grafo u2 x2 = none)
    (h0 : dijkstra grafo inicio f0 = .ok d0 c0)
    (h1 : dijkstra (removeAresta grafo u1 x1) inicio f1 = .ok d1 c1)
    (h2 : dijkstra (addAresta grafo u2 x2 w0) inicio f2 = .ok d2 c2) :
    (∀ v ∈ keysOf grafo, ∀ dv dv', dlookup d0 v = some dv →
        dlookup d1 v = some dv' → paraENat dv ≤ paraENat dv') ∧
    (∀ v ∈ keysOf grafo, ∀ dv dv', dlookup d0 v = some dv →
        dlookup d2 v = some dv' → paraENat dv' ≤ paraENat dv) := by
  have hcor0 := dijkstra_correct hdict.2 hs h0
  have hb1 : BomGrafo (removeAresta grafo u1 x1) := bomGrafo_removeAresta hdict u1 x1
  have hs1 : inicio ∈ keysOf (removeAresta grafo u1 x1) := by
    rw [keysOf_removeAresta]
    exact hs
  have hcor1 := dijkstra_correct hb1.2 hs1 h1
  have hb2 : BomGrafo (addAresta grafo u2 x2 w0) := bomGrafo_addAresta hdict hux w0
  have hs2 : inicio ∈ keysOf (addAresta grafo u2 x2 w0) := by
    rw [keysOf_addAresta]
    exact hs
  have hcor2 := dijkstra_correct hb2.2 hs2 h2
  constructor
  · intro v hv dv dv' hdv hdv'
    obtain ⟨dva, hdva, hsa⟩ := dijkstra_dist_sInf hcor0 v hv
    obtain ⟨dvb, hdvb, hsb⟩ := dijkstra_dist_sInf hcor1 v
      (by rw [keysOf_removeAresta]; exact hv)
    have e1 : dv = dva := by
      rw [hdv] at hdva
      exact Option.some_inj.mp hdva
    have e2 : dv' = dvb := by
      rw [hdv'] at hdvb
      exact Option.some_inj.mp hdvb
    rw [e1, e2, hsa, hsb]
    exact sInf_le_sInf
      (pesosAlcance_mono (fun a b w hw => aresta_removeAresta hdict.2 hw) inicio v)
  · intro v hv dv dv' hdv hdv'
    obtain ⟨dva, hdva, hsa⟩ := dijkstra_dist_sInf hcor0 v hv
    obtain ⟨dvb, hdvb, hsb⟩ := dijkstra_dist_sInf hcor2 v
      (by rw [keysOf_addAresta]; exact hv)
    have e1 : dv = dva := by
      rw [hdv] at hdva
      exact Option.some_inj.mp hdva
    have e2 : dv' = dvb := by
      rw [hdv'] at hdvb
      exact Option.some_inj.mp hdvb
    rw [e1, e2, hsa, hsb]
    exact sInf_le_sInf
      (pesosAlcance_mono (fun a b w hw => aresta_addAresta hux hw) inicio v)

/-- Witness for C7: removing A→B and adding B→A on a two-vertex graph. -/
theorem claim_C7_witness :
    (∀ v ∈ keysOf grafo_mono, ∀ dv dv', dlookup distancias_mono v = some dv →
        dlookup distancias_mono_rem v = some dv' → paraENat dv ≤ paraENat dv') ∧
    (∀ v ∈ keysOf grafo_mono, ∀ dv dv', dlookup distancias_mono v = some dv →
        dlookup distancias_mono v = some dv' → paraENat dv' ≤ paraENat dv) :=
  claim_C7 grafo_mono "A" "A" "B" "B" "A" 1 10 10 10
    distancias_mono distancias_mono_rem distancias_mono
    caminhos_mono caminhos_mono_rem caminhos_mono
    (by decide) (by decide) (by decide)
    dijkstra_mono_eq dijkstra_mono_rem_eq dijkstra_mono_add_eq

/-- C8 refutation: the code does raise.  With a source that is not a key of
the graph (`"Z"`), `grafo[vertice_atual]` raises a `KeyError` on the first
iteration; with a neighbour that is not a key (`"B"`),
`distancias[vizinho]` raises a `KeyError` — neither call completes. -/
theorem claim_C8_counterexample :
    dijkstra [("A", [("B", 1)])] "Z" 10 = .keyError ∧
    dijkstra [("A", [("B", 1)])] "A" 10 = .keyError :=
  ⟨by decide, by decide⟩

/-- C8 (amended): when the source is a key of the graph and every vertex
mentioned as a neighbour is a key of the graph, no error is raised — the call
never yields `KeyError`, and with enough fuel it completes and returns the two
dicts; when the source is missing or a relaxed neighbour is missing the code
raises `KeyError` instead of returning (see the counterexample). -/
theorem claim_C8 (grafo : Grafo) (inicio : String)
    (hdict : BomGrafo grafo) (hs : inicio ∈ keysOf grafo) (hFech : Fechado grafo) :
    (∀ fuel, dijkstra grafo inicio fuel ≠ .keyError) ∧
    (∃ fuel distancias caminhos,
      dijkstra grafo inicio fuel = .ok distancias caminhos) := by
  obtain ⟨F, d, c, hok⟩ := dijkstra_termina hdict hs hFech
  constructor
  · intro fuel hk
    rcases Nat.le_total fuel F with hle | hle
    · have hup := dijkstra_mono_fuel grafo inicio fuel .keyError hk
        (fun h => DijkRes.noConfusion h) F hle
      rw [hok] at hup
      exact DijkRes.noConfusion hup
    · have hup := dijkstra_mono_fuel grafo inicio F (.ok d c) hok
        (fun h => DijkRes.noConfusion h) fuel hle
      rw [hk] at hup
      exact DijkRes.noConfusion hup
  · exact ⟨F, d, c, hok⟩

/-- Witness for C8: the example graph raises no `KeyError` and completes. -/
theorem claim_C8_witness :
    (∀ fuel, dijkstra grafo_exemplo "A" fuel ≠ .keyError) ∧
    (∃ fuel distancias caminhos,
      dijkstra grafo_exemplo "A" fuel = .ok distancias caminhos) :=
  claim_C8 grafo_exemplo "A" (by decide) (by decide) (by decide)

/-- C9: for every finite dict-of-dicts graph with non-negative weights whose
key set contains the source and whose adjacency dicts mention only keys of
the graph, the while loop over the priority queue completes after finitely
many iterations — some finite fuel suffices for a normal return. -/
theorem claim_C9 (grafo : Grafo) (inicio : String)
    (hdict : BomGrafo grafo) (hs : inicio ∈ keysOf grafo) (hFech : Fechado grafo) :
    ∃ fuel distancias caminhos,
      dijkstra grafo inicio fuel = .ok distancias caminhos :=
  dijkstra_termina hdict hs hFech

/-- Witness for C9: the example graph terminates. -/
theorem claim_C9_witness :
    ∃ fuel distancias caminhos,
      dijkstra grafo_exemplo "A" fuel = .ok distancias caminhos :=
  claim_C9 grafo_exemplo "A" (by decide) (by decide) (by decide)

/-- C10: for every dict-of-dicts graph whose key set contains the source, and
for every vertex whose returned distance is finite, the returned path entry
is non-empty, starts at the source, ends at the vertex, and every consecutive
pair of its vertices is an edge present in the graph's adjacency dicts. -/
theorem claim_C10 (grafo : Grafo) (inicio : String) (fuel : Nat)
    (distancias : List (String × Option Nat)) (caminhos : List (String × List String))
    (hdict : BomGrafo grafo) (hs : inicio ∈ keysOf grafo)
    (hrun : dijkstra grafo inicio fuel = .ok distancias caminhos) :
    ∀ v n, dlookup distancias v = some (some n) →
      ∃ p, dlookup caminhos v = some p ∧ p ≠ [] ∧ p.head? = some inicio ∧
        p.getLast? = some v ∧ p.Chain' (Liga grafo) := by
  intro v n hv
  obtain ⟨p, h1, ⟨hh, hl, hc⟩, _⟩ := (dijkstra_correct hdict.2 hs hrun).camOk v n hv
  refine ⟨p, h1, ?_, hh, hl, hc⟩
  intro he
  rw [he] at hh
  exact Option.noConfusion hh

/-- Witness for C10: the example graph at vertex I. -/
theorem claim_C10_witness :
    ∃ p, dlookup caminhos_exemplo "I" = some p ∧ p ≠ [] ∧ p.head? = some "A" ∧
      p.getLast? = some "I" ∧ p.Chain' (Liga grafo_exemplo) :=
  claim_C10 grafo_exemplo "A" 30 distancias_exemplo caminhos_exemplo
    (by decide) (by decide) dijkstra_exemplo_eq "I" 3 (by decide)

end Plot
